import Mathlib

/-!
# Verification of the JusDNCE raster kernels

Shallow embedding of the four Rust source files (`sdf.rs`, `mipmap.rs`,
`normalize.rs`, `lib.rs`) of the JusDNCE-core2 wasm module, together with
proofs and refutations of the specification's claims about them.

Conventions of the embedding:
* byte buffers are `List ℕ` (row-major, values 0–255 where the source has `u8`);
* `usize`/`u32` indices are `ℕ`, signed coordinates are `ℤ`;
* `f32` quantities are idealized as exact arithmetic: `max_distance` and
  softness factors are `ℚ`, Euclidean distances are carried as exact squared
  distances in `ℕ` (the source only compares distances, and `sqrt` is strictly
  monotone, so comparing squares is equivalent), and the final conversions to
  bytes are computed with exact integer square roots and floors;
* `f32::MAX` sentinels are `Option.none`;
* out-of-range indexing (a panic in the source) is `List.getD _ _ 0`; every
  theorem carries the buffer-length preconditions under which the source does
  not panic, so the default is never reached;
* the transcendental sRGB transfer functions of `mipmap.rs` are parameters of
  the embedding (`s2l`, `l2s`); no claim depends on their values.
-/

namespace JusDnce

/-! ## `sdf.rs` — signed distance field generation -/

/-- `is_edge_pixel` from `sdf.rs`: a pixel is an edge pixel iff its opacity
classification (`alpha > 127`) differs from an in-bounds 4-connected
neighbor.  The source forms `x.wrapping_sub(1)` and then tests `nx < w`;
for the offsets ±1 this is exactly the signed in-bounds test used here. -/
def is_edge_pixel (alpha : List ℕ) (w h x y : ℕ) : Bool :=
  let current : Bool := decide (alpha.getD (y * w + x) 0 > 127)
  let neighbors : List (ℤ × ℤ) :=
    [((x : ℤ) - 1, (y : ℤ)), ((x : ℤ) + 1, (y : ℤ)),
     ((x : ℤ), (y : ℤ) - 1), ((x : ℤ), (y : ℤ) + 1)]
  neighbors.any fun p =>
    if 0 ≤ p.1 ∧ p.1 < (w : ℤ) ∧ 0 ≤ p.2 ∧ p.2 < (h : ℤ) then
      decide (alpha.getD (p.2.toNat * w + p.1.toNat) 0 > 127) != current
    else false

/-- JFA state: per-pixel nearest-seed index (`-1` in the source is `none`)
and per-pixel squared distance (`f32::MAX` in the source is `none`). -/
structure SdfState where
  seeds : List (Option ℕ)
  distSq : List (Option ℕ)

/-- Seed initialization of `generate_sdf`: edge pixels become their own seed
with distance 0; everything else keeps the sentinels. -/
def sdfInit (alpha : List ℕ) (w h : ℕ) : SdfState where
  seeds := (List.range (w * h)).map fun idx =>
    if is_edge_pixel alpha w h (idx % w) (idx / w) then some idx else none
  distSq := (List.range (w * h)).map fun idx =>
    if is_edge_pixel alpha w h (idx % w) (idx / w) then some 0 else none

/-- Squared Euclidean distance between the pixels with linear indices
`idx` and `sidx` in a row of width `w` (the source stores the `sqrt`;
only comparisons and the final normalization consume it). -/
def distSqPix (w idx sidx : ℕ) : ℕ :=
  ((idx % w : ℤ) - (sidx % w : ℤ)).natAbs ^ 2 +
    ((idx / w : ℤ) - (sidx / w : ℤ)).natAbs ^ 2

/-- `dist < distances[idx]` of the source, on squared distances with the
`f32::MAX` sentinel. -/
def ltDist (d : ℕ) : Option ℕ → Bool
  | none => true
  | some cur => d < cur

/-- The eight JFA probe offsets `(dy, dx)`, in the source's loop order
(`dy` outer, `dx` inner, the zero offset skipped). -/
def jfaOffsets : List (ℤ × ℤ) :=
  [(-1, -1), (-1, 0), (-1, 1), (0, -1), (0, 1), (1, -1), (1, 0), (1, 1)]

/-- One probe of the JFA inner loop: look at the neighbor at `(dx*step, dy*step)`
from pixel `idx`; if it is in bounds and carries a seed, adopt that seed when it
is strictly closer to `idx` than the current best. -/
def jfaVisit (w h step idx : ℕ) (st : SdfState) (off : ℤ × ℤ) : SdfState :=
  let x := idx % w
  let y := idx / w
  let nx : ℤ := (x : ℤ) + off.2 * (step : ℤ)
  let ny : ℤ := (y : ℤ) + off.1 * (step : ℤ)
  if 0 ≤ nx ∧ nx < (w : ℤ) ∧ 0 ≤ ny ∧ ny < (h : ℤ) then
    let nidx := ny.toNat * w + nx.toNat
    match st.seeds.getD nidx none with
    | some sidx =>
      let d := distSqPix w idx sidx
      if ltDist d (st.distSq.getD idx none) then
        ⟨st.seeds.set idx (some sidx), st.distSq.set idx (some d)⟩
      else st
    | none => st
  else st

/-- One full JFA pass: every pixel in row-major order probes its eight
step-neighbors, updating the single shared state in place (the source's
deliberate in-place, scan-order-dependent propagation). -/
def jfaPass (w h step : ℕ) (st : SdfState) : SdfState :=
  (List.range (w * h)).foldl
    (fun st idx => jfaOffsets.foldl (jfaVisit w h step idx) st) st

/-- The JFA driver loop (structural recursion on a fuel argument that is
always at least `step`; since `step` strictly halves every iteration,
`fuel = step` suffices for the loop to run to completion): run passes while
`step ≥ 1`, halving `step` (floor) after each pass. -/
def jfaLoopF (w h : ℕ) : ℕ → ℕ → SdfState → SdfState
  | 0, _, st => st
  | _, 0, st => st
  | fuel + 1, step, st => jfaLoopF w h fuel (step / 2) (jfaPass w h step st)

/-- The JFA driver loop: run passes while `step ≥ 1`, halving `step`
(floor) after each pass. -/
def jfaLoop (w h : ℕ) (st : SdfState) (step : ℕ) : SdfState :=
  jfaLoopF w h step step st

/-- `fuel ≥ step` makes the fuel encoding of the JFA loop insensitive to
the exact fuel, so `jfaLoop` really is the source's `while step >= 1` loop. -/
theorem jfaLoopF_fuel_irrel (w h : ℕ) :
    ∀ fuel fuel' step st, step ≤ fuel → step ≤ fuel' →
      jfaLoopF w h fuel step st = jfaLoopF w h fuel' step st := by
  intro fuel
  induction fuel with
  | zero =>
    intro fuel' step st h1 _
    interval_cases step
    cases fuel' <;> rfl
  | succ n ih =>
    intro fuel' step st h1 h2
    cases step with
    | zero => cases fuel' <;> rfl
    | succ s =>
      cases fuel' with
      | zero => omega
      | succ n' =>
        show jfaLoopF w h n ((s+1)/2) _ = jfaLoopF w h n' ((s+1)/2) _
        exact ih n' _ _ (by omega) (by omega)

/-- Squared distances produced by steps 1–2 of `generate_sdf` (seeding and
jump flooding), with the source's initial `step = max(max(w,h)/2, 1)`. -/
def sdfDistances (alpha : List ℕ) (w h : ℕ) : List (Option ℕ) :=
  (jfaLoop w h (sdfInit alpha w h) (Nat.max (Nat.max w h / 2) 1)).distSq

/-- Kernel-computable integer square root: linear search from below with
explicit fuel (`Nat.sqrt` itself is defined by well-founded recursion and
does not reduce in the kernel). -/
def natSqrtAux (n : ℕ) : ℕ → ℕ → ℕ
  | 0, k => k
  | fuel + 1, k => if (k + 1) * (k + 1) ≤ n then natSqrtAux n fuel (k + 1) else k

/-- Kernel-computable integer square root, equal to `Nat.sqrt`. -/
def natSqrt (n : ℕ) : ℕ := natSqrtAux n n 0

theorem natSqrtAux_eq_sqrt (n : ℕ) :
    ∀ fuel k, k * k ≤ n → Nat.sqrt n ≤ k + fuel → natSqrtAux n fuel k = Nat.sqrt n := by
  intro fuel
  induction fuel with
  | zero =>
    intro k hk hle
    have : k ≤ Nat.sqrt n := Nat.le_sqrt.mpr hk
    simpa [natSqrtAux] using le_antisymm this (by simpa using hle)
  | succ m ih =>
    intro k hk hle
    by_cases hstep : (k + 1) * (k + 1) ≤ n
    · simpa [natSqrtAux, hstep] using ih (k + 1) hstep (by omega)
    · have h1 : k ≤ Nat.sqrt n := Nat.le_sqrt.mpr hk
      have h2 : Nat.sqrt n < k + 1 := by
        by_contra hcon
        exact hstep (Nat.le_sqrt.mp (by omega))
      simpa [natSqrtAux, hstep] using le_antisymm h1 (by omega)

theorem natSqrt_eq_sqrt (n : ℕ) : natSqrt n = Nat.sqrt n :=
  natSqrtAux_eq_sqrt n n 0 (Nat.zero_le n) (by simpa using Nat.sqrt_le_self n)

/-- `⌊c * sqrt s / m⌋` for naturals `c`, `s` and a positive rational `m`,
computed with exact integer arithmetic. -/
def floorScaledSqrt (c s : ℕ) (m : ℚ) : ℕ :=
  natSqrt (c ^ 2 * s * m.den ^ 2) / m.num.toNat

/-- `⌈c * sqrt s / m⌉` for naturals `c`, `s` and a positive rational `m`. -/
def ceilScaledSqrt (c s : ℕ) (m : ℚ) : ℕ :=
  let k := floorScaledSqrt c s m
  if k ^ 2 * m.num.toNat ^ 2 = c ^ 2 * s * m.den ^ 2 then k else k + 1

/-- Step 3 of `generate_sdf` for one pixel: clamp the distance to
`max_distance` (the `none` sentinel saturates), sign it negative inside
(`alpha > 127`), map through `signed/max_distance * 127 + 128`, clamp to
`[0, 255]` and truncate to a byte (the `as u8` cast truncates toward zero). -/
def normByte (alpha : ℕ) (dsq : Option ℕ) (m : ℚ) : ℕ :=
  let inside : Bool := decide (alpha > 127)
  match dsq with
  | none => if inside then 1 else 255
  | some s =>
    if m.num.toNat ^ 2 ≤ s * m.den ^ 2 then
      -- sqrt s ≥ m: the distance clamps to max_distance
      if inside then 1 else 255
    else if inside then 128 - ceilScaledSqrt 127 s m
    else 128 + floorScaledSqrt 127 s m

/-- `generate_sdf` from `sdf.rs`: seed, jump-flood, then normalize each pixel. -/
def generate_sdf (alpha : List ℕ) (w h : ℕ) (m : ℚ) : List ℕ :=
  let d := sdfDistances alpha w h
  (List.range (w * h)).map fun idx => normByte (alpha.getD idx 0) (d.getD idx none) m

/-! ## Bridge lemmas between the integer-arithmetic normalization and the
real-valued formulas of the specification -/

theorem floor_sqrt_div_nat (M p : ℕ) (hp : 0 < p) :
    ⌊Real.sqrt M / p⌋ = (natSqrt M / p : ℕ) := by
  have hnn : (0 : ℝ) ≤ Real.sqrt M / p := by positivity
  rw [← Int.natCast_floor_eq_floor hnn]
  norm_cast
  rw [Nat.floor_div_nat, Real.nat_floor_real_sqrt_eq_nat_sqrt, natSqrt_eq_sqrt]

theorem ceil_sqrt_div_nat (M p : ℕ) (hp : 0 < p) :
    ⌈Real.sqrt M / p⌉ =
      ((if (natSqrt M / p) ^ 2 * p ^ 2 = M then natSqrt M / p else natSqrt M / p + 1 : ℕ) : ℤ) := by
  set k : ℕ := natSqrt M / p with hk
  have hfloor : ⌊Real.sqrt M / p⌋ = (k : ℤ) := floor_sqrt_div_nat M p hp
  by_cases hex : k ^ 2 * p ^ 2 = M
  · have hsq : Real.sqrt M = (k : ℝ) * p := by
      have hM : M = (k * p) ^ 2 := by rw [mul_pow]; omega
      have : (M : ℝ) = ((k : ℝ) * p) ^ 2 := by exact_mod_cast congrArg (fun n : ℕ => (n : ℝ)) hM
      rw [this, Real.sqrt_sq (by positivity)]
    have : Real.sqrt M / p = (k : ℝ) := by
      rw [hsq]
      field_simp
    rw [this, hex]
    simp [hex]
  · have hlt : (k : ℝ) < Real.sqrt M / p := by
      rcases lt_or_eq_of_le (by
        have := Int.floor_le (Real.sqrt M / p)
        rw [hfloor] at this
        exact_mod_cast this) with h | h
      · exact h
      · exfalso
        apply hex
        have hs : Real.sqrt M = (k : ℝ) * p := by
          field_simp at h
          linarith [h]
        have : (M : ℝ) = ((k : ℝ) * p) ^ 2 := by
          rw [← hs, Real.sq_sqrt (by positivity)]
        have : (M : ℝ) = ((k ^ 2 * p ^ 2 : ℕ) : ℝ) := by push_cast; nlinarith [this]
        exact_mod_cast this.symm
    have hub : Real.sqrt M / p < (k : ℝ) + 1 := by
      have := Int.lt_floor_add_one (Real.sqrt M / p)
      rw [hfloor] at this
      exact_mod_cast this
    have h1 : ((k : ℤ) + 1 : ℤ) ≤ ⌈Real.sqrt M / p⌉ := by
      rw [Int.add_one_le_iff, Int.lt_ceil]
      exact_mod_cast hlt
    have h2 : ⌈Real.sqrt M / p⌉ ≤ (k : ℤ) + 1 := by
      rw [Int.ceil_le]
      push_cast
      linarith [hub]
    simp only [hex, if_false]
    push_cast
    omega


theorem scaled_sqrt_eq (s : ℕ) (m : ℚ) (hm : 0 < m) :
    Real.sqrt ((127 ^ 2 * s * m.den ^ 2 : ℕ) : ℝ) / (m.num.toNat : ℝ) =
      127 * Real.sqrt s / (m : ℝ) := by
  have hq : (0 : ℝ) < (m.den : ℝ) := by exact_mod_cast m.pos
  have hpn : 0 < m.num.toNat := by have := Rat.num_pos.mpr hm; omega
  have hp : (0 : ℝ) < (m.num.toNat : ℝ) := by exact_mod_cast hpn
  have hmr : (m : ℝ) = (m.num.toNat : ℝ) / (m.den : ℝ) := by
    rw [Rat.cast_def m]
    congr 1
    exact_mod_cast (Int.toNat_of_nonneg (Rat.num_pos.mpr hm).le).symm
  have hsqrt : Real.sqrt ((127 ^ 2 * s * m.den ^ 2 : ℕ) : ℝ) =
      127 * Real.sqrt s * m.den := by
    have hM : ((127 ^ 2 * s * m.den ^ 2 : ℕ) : ℝ) =
        ((127 * m.den : ℝ)) ^ 2 * s := by push_cast; ring
    rw [hM, Real.sqrt_mul (by positivity), Real.sqrt_sq (by positivity)]
    ring
  rw [hsqrt, hmr]
  field_simp

/-- The per-pixel normalization of `generate_sdf` equals the truncation
(floor, since the clamped value is nonnegative) of the real-valued formula
`clamp(signed/max_distance * 127 + 128, 0, 255)`, where the distance (the
`f32::MAX` sentinel included) is clamped to `max_distance` and signed
negative on opaque pixels. -/
theorem normByte_eq_floor (α : ℕ) (dsq : Option ℕ) (m : ℚ) (hm : 0 < m) :
    (normByte α dsq m : ℤ) =
      ⌊max 0 (min 255
        ((if 127 < α then
            -(match dsq with
              | none => (m : ℝ)
              | some s => min (Real.sqrt s) (m : ℝ))
          else
            (match dsq with
              | none => (m : ℝ)
              | some s => min (Real.sqrt s) (m : ℝ))) / (m : ℝ) * 127 + 128))⌋ := by
  have hm' : (0 : ℝ) < (m : ℝ) := by exact_mod_cast hm
  have hq : (0 : ℕ) < m.den := m.pos
  have hp : 0 < m.num.toNat := by have := Rat.num_pos.mpr hm; omega
  have hmr : (m : ℝ) = (m.num.toNat : ℝ) / (m.den : ℝ) := by
    rw [Rat.cast_def m]
    congr 1
    exact_mod_cast (Int.toNat_of_nonneg (Rat.num_pos.mpr hm).le).symm
  have hsat_in : ⌊max 0 (min 255 (-(m : ℝ) / (m : ℝ) * 127 + 128))⌋ = 1 := by
    have hv : -(m : ℝ) / (m : ℝ) * 127 + 128 = 1 := by
      rw [neg_div, div_self hm'.ne']
      ring
    rw [hv, min_eq_right (by norm_num), max_eq_right (by norm_num), Int.floor_one]
  have hsat_out : ⌊max 0 (min 255 ((m : ℝ) / (m : ℝ) * 127 + 128))⌋ = 255 := by
    have hv : (m : ℝ) / (m : ℝ) * 127 + 128 = 255 := by
      rw [div_self hm'.ne']
      ring
    rw [hv, min_self, max_eq_right (by norm_num),
      show (255 : ℝ) = ((255 : ℤ) : ℝ) by norm_num, Int.floor_intCast]
  cases dsq with
  | none =>
    show (normByte α none m : ℤ) =
      ⌊max 0 (min 255
        ((if 127 < α then -(m : ℝ) else (m : ℝ)) / (m : ℝ) * 127 + 128))⌋
    by_cases hα : 127 < α
    · rw [if_pos hα]
      have hLHS : normByte α none m = 1 := by simp [normByte, hα]
      rw [hLHS, hsat_in]
      norm_num
    · rw [if_neg hα]
      have hLHS : normByte α none m = 255 := by simp [normByte, hα]
      rw [hLHS, hsat_out]
      norm_num
  | some s =>
    show (normByte α (some s) m : ℤ) =
      ⌊max 0 (min 255
        ((if 127 < α then -(min (Real.sqrt s) (m : ℝ))
          else min (Real.sqrt s) (m : ℝ)) / (m : ℝ) * 127 + 128))⌋
    by_cases hcl : m.num.toNat ^ 2 ≤ s * m.den ^ 2
    · have hle : (m : ℝ) ≤ Real.sqrt s := by
        rw [Real.le_sqrt hm'.le (by positivity), hmr, div_pow, div_le_iff₀ (by positivity)]
        calc ((m.num.toNat : ℝ)) ^ 2 ≤ ((s * m.den ^ 2 : ℕ) : ℝ) := by exact_mod_cast hcl
          _ = (s : ℝ) * ((m.den : ℝ)) ^ 2 := by push_cast; ring
      have hmin : min (Real.sqrt s) (m : ℝ) = (m : ℝ) := min_eq_right hle
      by_cases hα : 127 < α
      · rw [if_pos hα, hmin]
        have hLHS : normByte α (some s) m = 1 := by simp [normByte, hα, hcl]
        rw [hLHS, hsat_in]
        norm_num
      · rw [if_neg hα, hmin]
        have hLHS : normByte α (some s) m = 255 := by simp [normByte, hα, hcl]
        rw [hLHS, hsat_out]
        norm_num
    · have hslt : Real.sqrt s < (m : ℝ) := by
        rw [Real.sqrt_lt' hm', hmr, div_pow, lt_div_iff₀ (by positivity)]
        calc (s : ℝ) * ((m.den : ℝ)) ^ 2 = ((s * m.den ^ 2 : ℕ) : ℝ) := by push_cast; ring
          _ < ((m.num.toNat : ℝ)) ^ 2 := by exact_mod_cast lt_of_not_le hcl
      have hmin : min (Real.sqrt s) (m : ℝ) = Real.sqrt s := min_eq_left hslt.le
      set M : ℕ := 127 ^ 2 * s * m.den ^ 2 with hMdef
      set T : ℝ := Real.sqrt (M : ℝ) / (m.num.toNat : ℝ) with hTdef
      have hT : T = 127 * Real.sqrt s / (m : ℝ) := scaled_sqrt_eq s m hm
      have hT0 : 0 ≤ T := by rw [hTdef]; positivity
      have hT127 : T < 127 := by
        rw [hT, div_lt_iff₀ hm']
        nlinarith [Real.sqrt_nonneg (s : ℝ), hslt]
      have hfloorT : ⌊T⌋ = ((natSqrt M / m.num.toNat : ℕ) : ℤ) :=
        floor_sqrt_div_nat M m.num.toNat hp
      by_cases hα : 127 < α
      · -- inside: byte = 128 - ⌈T⌉
        rw [if_pos hα, hmin]
        have hceilT : ⌈T⌉ = ((ceilScaledSqrt 127 s m : ℕ) : ℤ) := by
          rw [hTdef, ceil_sqrt_div_nat M m.num.toNat hp]
          simp only [ceilScaledSqrt, floorScaledSqrt]
        have hceil_le : ceilScaledSqrt 127 s m ≤ 127 := by
          have : ⌈T⌉ ≤ (127 : ℤ) := Int.ceil_le.mpr (by exact_mod_cast hT127.le)
          rw [hceilT] at this
          exact_mod_cast this
        have hLHS : normByte α (some s) m = 128 - ceilScaledSqrt 127 s m := by
          simp [normByte, hα, hcl]
        have hval : -Real.sqrt s / (m : ℝ) * 127 + 128 = 128 - T := by
          rw [hT]
          ring
        have hle255 : (128 : ℝ) - T ≤ 255 := by linarith
        have hge0 : (0 : ℝ) ≤ 128 - T := by linarith
        have hfloor128 : ⌊(128 : ℝ) - T⌋ = 128 - ⌈T⌉ := by
          rw [show (128 : ℝ) - T = -T + ((128 : ℤ) : ℝ) by push_cast; ring,
            Int.floor_add_int, Int.floor_neg]
          ring
        rw [hLHS, hval, min_eq_right hle255, max_eq_right hge0, hfloor128, hceilT,
          Nat.cast_sub (hceil_le.trans (by norm_num))]
        norm_num
      · -- outside: byte = 128 + ⌊T⌋
        rw [if_neg hα, hmin]
        have hLHS : normByte α (some s) m = 128 + floorScaledSqrt 127 s m := by
          simp [normByte, hα, hcl]
        have hval : Real.sqrt s / (m : ℝ) * 127 + 128 = T + 128 := by
          rw [hT]
          ring
        have hle255 : T + 128 ≤ 255 := by linarith
        have hge0 : (0 : ℝ) ≤ T + 128 := by linarith
        have hfloor128 : ⌊T + (128 : ℝ)⌋ = ⌊T⌋ + 128 := by
          rw [show (128 : ℝ) = ((128 : ℤ) : ℝ) by push_cast; ring, Int.floor_add_int]
        rw [hLHS, hval, min_eq_right hle255, max_eq_right hge0, hfloor128, hfloorT]
        simp only [floorScaledSqrt, hMdef]
        push_cast
        ring

theorem range_map_getD {α : Type} (n : ℕ) (f : ℕ → α) (d : α) (i : ℕ) (hi : i < n) :
    ((List.range n).map f).getD i d = f i := by
  rw [List.getD_eq_getElem?_getD, List.getElem?_map, List.getElem?_range hi]
  rfl

/-- C1 (amended): for every alpha mask and every `max_distance > 0`, each
output byte of `generate_sdf` equals `clamp(signed/max_distance * 127 + 128,
0, 255)` truncated toward zero (equivalently floored, since the clamped value
is nonnegative) — not rounded to nearest — where `signed` is the pixel's
distance (the unset sentinel reading as saturated) clamped to `max_distance`,
negated when the pixel's alpha > 127 and positive otherwise. -/
theorem C1_generate_sdf_truncates (a : List ℕ) (w h : ℕ) (m : ℚ) (i : ℕ)
    (hm : 0 < m) (hi : i < w * h) :
    ((generate_sdf a w h m).getD i 0 : ℤ) =
      ⌊max 0 (min 255
        ((if 127 < a.getD i 0 then
            -(match (sdfDistances a w h).getD i none with
              | none => (m : ℝ)
              | some s => min (Real.sqrt s) (m : ℝ))
          else
            (match (sdfDistances a w h).getD i none with
              | none => (m : ℝ)
              | some s => min (Real.sqrt s) (m : ℝ))) / (m : ℝ) * 127 + 128))⌋ := by
  have hsel : (generate_sdf a w h m).getD i 0 =
      normByte (a.getD i 0) ((sdfDistances a w h).getD i none) m := by
    simp only [generate_sdf]
    exact range_map_getD (w * h) _ 0 i hi
  rw [hsel]
  exact normByte_eq_floor (a.getD i 0) ((sdfDistances a w h).getD i none) m hm

/-- Witness for C1's amended theorem at the 3×1 mask `[0,0,255]` with
`max_distance = 2`, pixel 0. -/
theorem C1_generate_sdf_truncates_witness :
    ((generate_sdf [0, 0, 255] 3 1 2).getD 0 0 : ℤ) =
      ⌊max 0 (min 255
        ((if 127 < [0, 0, 255].getD 0 0 then
            -(match (sdfDistances [0, 0, 255] 3 1).getD 0 none with
              | none => ((2 : ℚ) : ℝ)
              | some s => min (Real.sqrt s) ((2 : ℚ) : ℝ))
          else
            (match (sdfDistances [0, 0, 255] 3 1).getD 0 none with
              | none => ((2 : ℚ) : ℝ)
              | some s => min (Real.sqrt s) ((2 : ℚ) : ℝ))) / ((2 : ℚ) : ℝ) * 127
          + 128))⌋ :=
  C1_generate_sdf_truncates [0, 0, 255] 3 1 2 0 (by norm_num) (by norm_num)

/-- C1 counterexample to the claim as stated: on the 3×1 mask `[0,0,255]`
with `max_distance = 2`, pixel 0 has distance 1, so the claim's
round-to-nearest formula gives `round(1/2 * 127 + 128) = round(191.5) = 192`,
but `generate_sdf` outputs 191 (the `as u8` cast truncates). -/
theorem C1_rounding_counterexample :
    (sdfDistances [0, 0, 255] 3 1).getD 0 none = some 1 ∧
    (generate_sdf [0, 0, 255] 3 1 2).getD 0 0 = 191 ∧
    round ((1 / 2 : ℚ) * 127 + 128) = 192 ∧
    (191 : ℤ) ≠ 192 := by
  refine ⟨by decide, by decide, ?_, by decide⟩
  norm_num [round_eq]

/-! ## C4: masks without opacity transitions -/

/-- A mask has no opacity transition when every pair of in-bounds 4-adjacent
pixels has the same opacity classification (`alpha > 127`). -/
def noTransition (a : List ℕ) (w h : ℕ) : Prop :=
  ∀ x y x' y', x < w → y < h → x' < w → y' < h →
    ((x' = x + 1 ∧ y' = y) ∨ (x = x' + 1 ∧ y' = y) ∨
      (x' = x ∧ y' = y + 1) ∨ (x' = x ∧ y = y' + 1)) →
    (127 < a.getD (y * w + x) 0 ↔ 127 < a.getD (y' * w + x') 0)

theorem is_edge_pixel_eq_false (a : List ℕ) (w h : ℕ) (hnt : noTransition a w h)
    (x y : ℕ) (hx : x < w) (hy : y < h) : is_edge_pixel a w h x y = false := by
  simp only [is_edge_pixel, List.any_cons, List.any_nil, Bool.or_false,
    Bool.or_eq_false_iff]
  refine ⟨?_, ?_, ?_, ?_⟩
  · split_ifs with hb
    · have h1 : ((x : ℤ) - 1).toNat = x - 1 := by omega
      have h2 : ((y : ℤ)).toNat = y := by omega
      have hx1 : 1 ≤ x := by omega
      rw [h1, h2, bne_eq_false_iff_eq, decide_eq_decide]
      exact hnt (x - 1) y x y (by omega) hy hx hy (Or.inl ⟨by omega, rfl⟩)
    · rfl
  · split_ifs with hb
    · have h1 : ((x : ℤ) + 1).toNat = x + 1 := by omega
      have h2 : ((y : ℤ)).toNat = y := by omega
      rw [h1, h2, bne_eq_false_iff_eq, decide_eq_decide]
      exact (hnt x y (x + 1) y hx hy (by omega) hy (Or.inl ⟨rfl, rfl⟩)).symm
    · rfl
  · split_ifs with hb
    · have h1 : ((x : ℤ)).toNat = x := by omega
      have h2 : ((y : ℤ) - 1).toNat = y - 1 := by omega
      rw [h1, h2, bne_eq_false_iff_eq, decide_eq_decide]
      exact hnt x (y - 1) x y hx (by omega) hx hy
        (Or.inr (Or.inr (Or.inl ⟨rfl, by omega⟩)))
    · rfl
  · split_ifs with hb
    · have h1 : ((x : ℤ)).toNat = x := by omega
      have h2 : ((y : ℤ) + 1).toNat = y + 1 := by omega
      rw [h1, h2, bne_eq_false_iff_eq, decide_eq_decide]
      exact (hnt x y x (y + 1) hx hy hx (by omega)
        (Or.inr (Or.inr (Or.inl ⟨rfl, rfl⟩)))).symm
    · rfl

theorem range_map_eq_replicate {α : Type} (n : ℕ) (f : ℕ → α) (c : α)
    (hf : ∀ i < n, f i = c) : (List.range n).map f = List.replicate n c := by
  rw [List.eq_replicate_iff]
  constructor
  · simp
  · intro b hb
    rcases List.mem_map.mp hb with ⟨i, hi, rfl⟩
    exact hf i (List.mem_range.mp hi)

theorem sdfInit_of_noTransition (a : List ℕ) (w h : ℕ) (hnt : noTransition a w h) :
    sdfInit a w h = ⟨List.replicate (w * h) none, List.replicate (w * h) none⟩ := by
  have hedge : ∀ i < w * h, is_edge_pixel a w h (i % w) (i / w) = false := by
    intro i hi
    have hw : 0 < w := by
      rcases Nat.eq_zero_or_pos w with hw | hw
      · subst hw
        simp at hi
      · exact hw
    exact is_edge_pixel_eq_false a w h hnt (i % w) (i / w)
      (Nat.mod_lt i hw) (Nat.div_lt_of_lt_mul hi)
  unfold sdfInit
  congr 1 <;>
    exact range_map_eq_replicate _ _ _ (fun i hi => by rw [hedge i hi]; rfl)

theorem getD_replicate_none (n i : ℕ) :
    (List.replicate n (none : Option ℕ)).getD i none = none := by
  rw [List.getD_eq_getElem?_getD, List.getElem?_replicate]
  split <;> rfl

theorem jfaVisit_of_no_seeds (w h step idx : ℕ) (st : SdfState) (off : ℤ × ℤ)
    (hseeds : st.seeds = List.replicate (w * h) none) :
    jfaVisit w h step idx st off = st := by
  simp only [jfaVisit]
  split_ifs with hb
  · rw [hseeds, getD_replicate_none]
  · rfl

theorem foldl_fixed {α : Type} {β : Type} (f : α → β → α) (a : α) :
    ∀ l : List β, (∀ b ∈ l, f a b = a) → l.foldl f a = a := by
  intro l
  induction l with
  | nil => intro _; rfl
  | cons b t ih =>
    intro hfix
    rw [List.foldl_cons, hfix b (by simp)]
    exact ih fun b hb => hfix b (by simp [hb])

theorem jfaPass_of_no_seeds (w h step : ℕ) (st : SdfState)
    (hseeds : st.seeds = List.replicate (w * h) none) :
    jfaPass w h step st = st := by
  unfold jfaPass
  refine foldl_fixed _ st _ fun idx _ => ?_
  exact foldl_fixed _ st _ fun off _ => jfaVisit_of_no_seeds w h step idx st off hseeds

theorem jfaLoopF_of_no_seeds (w h : ℕ) :
    ∀ fuel step (st : SdfState), st.seeds = List.replicate (w * h) none →
      jfaLoopF w h fuel step st = st := by
  intro fuel
  induction fuel with
  | zero =>
    intro step st _
    cases step <;> rfl
  | succ n ih =>
    intro step st hseeds
    cases step with
    | zero => rfl
    | succ s =>
      show jfaLoopF w h n ((s + 1) / 2) (jfaPass w h (s + 1) st) = st
      rw [jfaPass_of_no_seeds w h (s + 1) st hseeds]
      exact ih _ st hseeds

theorem getD_mem_of_lt {l : List ℕ} {i : ℕ} (h : i < l.length) : l.getD i 0 ∈ l := by
  rw [List.getD_eq_getElem l 0 h]
  exact List.getElem_mem h

theorem sdfDistances_of_noTransition (a : List ℕ) (w h : ℕ)
    (hnt : noTransition a w h) :
    sdfDistances a w h = List.replicate (w * h) none := by
  unfold sdfDistances jfaLoop
  rw [sdfInit_of_noTransition a w h hnt, jfaLoopF_of_no_seeds w h _ _ _ rfl]

/-- C4: for every mask containing no opacity transition (in particular every
all-transparent or all-opaque mask) and any `max_distance > 0`, no pixel is
seeded, every distance stays at the unset sentinel (which reads as
`max_distance` before sign/normalize), and consequently `generate_sdf` yields
every byte ≥ 128 on an all-transparent mask and every byte ≤ 128 on an
all-opaque mask. -/
theorem C4_no_transition_saturates (a : List ℕ) (w h : ℕ) (m : ℚ)
    (hm : 0 < m) (hlen : a.length = w * h) :
    (noTransition a w h →
      (sdfInit a w h).seeds = List.replicate (w * h) none ∧
      sdfDistances a w h = List.replicate (w * h) none) ∧
    ((∀ v ∈ a, v ≤ 127) → ∀ i, i < w * h → 128 ≤ (generate_sdf a w h m).getD i 0) ∧
    ((∀ v ∈ a, 127 < v) → ∀ i, i < w * h → (generate_sdf a w h m).getD i 0 ≤ 128) := by
  have hbyte : ∀ i, i < w * h → noTransition a w h →
      (generate_sdf a w h m).getD i 0 = normByte (a.getD i 0) none m := by
    intro i hi hnt
    simp only [generate_sdf]
    rw [range_map_getD (w * h) _ 0 i hi, sdfDistances_of_noTransition a w h hnt,
      getD_replicate_none]
  refine ⟨fun hnt => ⟨by rw [sdfInit_of_noTransition a w h hnt],
    sdfDistances_of_noTransition a w h hnt⟩, ?_, ?_⟩
  · intro htr i hi
    have hmem : ∀ j, a.getD j 0 ≤ 127 := by
      intro j
      by_cases hj : j < a.length
      · exact htr _ (getD_mem_of_lt hj)
      · rw [List.getD_eq_default _ _ (by omega)]
        omega
    have hnt : noTransition a w h := by
      intro x y x' y' _ _ _ _ _
      constructor <;> intro hcon <;>
        [exact absurd hcon (by have := hmem (y * w + x); omega);
         exact absurd hcon (by have := hmem (y' * w + x'); omega)]
    rw [hbyte i hi hnt]
    have hlt : ¬ 127 < a.getD i 0 := by have := hmem i; omega
    generalize a.getD i 0 = v at hlt ⊢
    simp [normByte, hlt]
  · intro hop i hi
    have hval : 127 < a.getD i 0 := hop _ (getD_mem_of_lt (by omega))
    have hnt : noTransition a w h := by
      intro x y x' y' hx hy hx' hy' _
      have hw : 0 < w := by omega
      have h1 : y * w + x < a.length := by
        rw [hlen]
        calc y * w + x < y * w + w := by omega
          _ = (y + 1) * w := by ring
          _ ≤ h * w := Nat.mul_le_mul_right w (by omega)
          _ = w * h := Nat.mul_comm h w
      have h2 : y' * w + x' < a.length := by
        rw [hlen]
        calc y' * w + x' < y' * w + w := by omega
          _ = (y' + 1) * w := by ring
          _ ≤ h * w := Nat.mul_le_mul_right w (by omega)
          _ = w * h := Nat.mul_comm h w
      have := hop _ (getD_mem_of_lt h1)
      have := hop _ (getD_mem_of_lt h2)
      omega
    rw [hbyte i hi hnt]
    generalize a.getD i 0 = v at hval ⊢
    simp [normByte, hval]

/-- Witness for C4 at a 2×2 all-transparent and a 2×2 all-opaque mask with
`max_distance = 5`. -/
theorem C4_no_transition_saturates_witness :
    128 ≤ (generate_sdf [0, 0, 0, 0] 2 2 5).getD 0 0 ∧
    (generate_sdf [255, 255, 255, 255] 2 2 5).getD 0 0 ≤ 128 :=
  ⟨(C4_no_transition_saturates [0, 0, 0, 0] 2 2 5 (by norm_num)
      (by decide)).2.1 (by decide) 0 (by decide),
   (C4_no_transition_saturates [255, 255, 255, 255] 2 2 5 (by norm_num)
      (by decide)).2.2 (by decide) 0 (by decide)⟩

/-! ## `normalize.rs` — centroid, matte normalization, morphology -/

/-- `Centroid` from `normalize.rs` (`x`/`y` are `f32` in the source,
idealized here as exact rationals). -/
structure Centroid where
  x : ℚ
  y : ℚ
  area : ℕ
  bounds_x : ℕ
  bounds_y : ℕ
  bounds_width : ℕ
  bounds_height : ℕ
deriving DecidableEq, Repr

/-- Accumulator state of the `calculate_centroid` scan. -/
structure CentState where
  sum_x : ℚ
  sum_y : ℚ
  count : ℕ
  min_x : ℕ
  max_x : ℕ
  min_y : ℕ
  max_y : ℕ
deriving DecidableEq

/-- One pixel step of the `calculate_centroid` scan (the source iterates
`y` in `0..h`, `x` in `0..w`, which visits linear indices in order). -/
def centStep (a : List ℕ) (w : ℕ) (t : ℕ) (st : CentState) (idx : ℕ) : CentState :=
  let x := idx % w
  let y := idx / w
  if t ≤ a.getD idx 0 then
    { sum_x := st.sum_x + x, sum_y := st.sum_y + y, count := st.count + 1,
      min_x := min st.min_x x, max_x := max st.max_x x,
      min_y := min st.min_y y, max_y := max st.max_y y }
  else st

/-- `calculate_centroid` from `normalize.rs`: scan all pixels accumulating
sums, count and min/max of qualifying (`alpha >= threshold`) coordinates;
empty masks fall back to the image center (integer division, as in the
source's `width / 2`) and the full-image bounding box. -/
def calculate_centroid (a : List ℕ) (w h : ℕ) (t : ℕ) : Centroid :=
  let st := (List.range (w * h)).foldl (centStep a w t) ⟨0, 0, 0, w, 0, h, 0⟩
  if st.count = 0 then
    { x := ((w / 2 : ℕ) : ℚ), y := ((h / 2 : ℕ) : ℚ), area := 0,
      bounds_x := 0, bounds_y := 0, bounds_width := w, bounds_height := h }
  else
    { x := st.sum_x / st.count, y := st.sum_y / st.count, area := st.count,
      bounds_x := st.min_x, bounds_y := st.min_y,
      bounds_width := st.max_x - st.min_x + 1,
      bounds_height := st.max_y - st.min_y + 1 }

/-- The horizontal pass of `smooth_alpha`: for each pixel, accumulate the
window `sx = (x + dx).saturating_sub(radius)` for `dx` in `0..=2*radius`,
counting only samples with `sx < w`, and divide by `max(count, 1)`. -/
def blurPassH (a : List ℕ) (w h r : ℕ) : List ℕ :=
  (List.range (w * h)).map fun idx =>
    let x := idx % w
    let y := idx / w
    let sc := (List.range (2 * r + 1)).foldl
      (fun (sc : ℕ × ℕ) dx =>
        let sx := x + dx - r
        if sx < w then (sc.1 + a.getD (y * w + sx) 0, sc.2 + 1) else sc)
      (0, 0)
    sc.1 / max sc.2 1

/-- The vertical pass of `smooth_alpha`, the same window logic on columns. -/
def blurPassV (a : List ℕ) (w h r : ℕ) : List ℕ :=
  (List.range (w * h)).map fun idx =>
    let x := idx % w
    let y := idx / w
    let sc := (List.range (2 * r + 1)).foldl
      (fun (sc : ℕ × ℕ) dy =>
        let sy := y + dy - r
        if sy < h then (sc.1 + a.getD (sy * w + x) 0, sc.2 + 1) else sc)
      (0, 0)
    sc.1 / max sc.2 1

/-- `smooth_alpha` from `normalize.rs`: `radius = ceil(strength * 2)`
(saturating to 0 for negative strength, as the Rust `as usize` cast does),
identity when the radius is 0, otherwise a horizontal then a vertical box
pass followed by the `original*(1-strength) + blurred*strength` blend,
rounded (`f32::round`, half away from zero; the blend is nonnegative for
strength in [0,1], where this agrees with `round` here). -/
def smooth_alpha (a : List ℕ) (w h : ℕ) (strength : ℚ) : List ℕ :=
  let r := (⌈strength * 2⌉).toNat
  if r = 0 then a
  else
    let temp := blurPassH a w h r
    let res := blurPassV temp w h r
    (List.range (w * h)).map fun i =>
      (round ((a.getD i 0 : ℚ) * (1 - strength) + (res.getD i 0 : ℚ) * strength)).toNat

/-- The alpha plane extracted from an RGBA buffer (`image_data[i * 4 + 3]`). -/
def alphaPlane (image : List ℕ) (w h : ℕ) : List ℕ :=
  (List.range (w * h)).map fun i => image.getD (i * 4 + 3) 0

/-- `normalize_matte` from `normalize.rs`.  The source mutates the RGBA
buffer in place and returns the centroid; the embedding returns the final
buffer together with the centroid.  When `edge_softness > 0` the smoothed
alpha is written back and each color channel is premultiplied by
`smoothed/255` (the `as u8` cast truncates toward zero, i.e. floor);
otherwise the buffer is untouched.  The centroid of the final alpha plane
is computed with the fixed threshold 128. -/
def normalize_matte (image : List ℕ) (w h : ℕ) (softness : ℚ) : List ℕ × Centroid :=
  let alpha := alphaPlane image w h
  let image' :=
    if 0 < softness then
      let smoothed := smooth_alpha alpha w h softness
      (List.range (w * h * 4)).map fun j =>
        let i := j / 4
        if j % 4 = 3 then smoothed.getD i 0
        else (((image.getD j 0 : ℚ) * (smoothed.getD i 0 : ℚ) / 255).floor).toNat
    else image
  let final_alpha := alphaPlane image' w h
  (image', calculate_centroid final_alpha w h 128)

/-- The signed offset list `-r ..= r` of the morphology loops
(`for dy in -r..=r`). -/
def intRange (r : ℕ) : List ℤ :=
  (List.range (2 * r + 1)).map fun i : ℕ => (i : ℤ) - r

/-- `dilate_alpha` from `normalize.rs`: per pixel, the max alpha over the
disk `dx² + dy² ≤ r²` of in-bounds samples (accumulator starts at 0;
`x = idx % w`, `y = idx / w`, `sx = x + dx`, `sy = y + dy` are inlined). -/
def dilate_alpha (a : List ℕ) (w h rad : ℕ) : List ℕ :=
  (List.range (w * h)).map fun idx =>
    (intRange rad).foldl
      (fun mv dy =>
        (intRange rad).foldl
          (fun mv dx =>
            if dx * dx + dy * dy > (rad : ℤ) * rad then mv
            else
              if 0 ≤ (idx % w : ℕ) + dx ∧ (idx % w : ℕ) + dx < (w : ℤ) ∧
                  0 ≤ (idx / w : ℕ) + dy ∧ (idx / w : ℕ) + dy < (h : ℤ) then
                max mv (a.getD (((idx / w : ℕ) + dy).toNat * w + ((idx % w : ℕ) + dx).toNat) 0)
              else mv)
          mv)
      0

/-- `erode_alpha` from `normalize.rs`: per pixel, the min alpha over the
disk `dx² + dy² ≤ r²` of in-bounds samples (accumulator starts at 255). -/
def erode_alpha (a : List ℕ) (w h rad : ℕ) : List ℕ :=
  (List.range (w * h)).map fun idx =>
    (intRange rad).foldl
      (fun mv dy =>
        (intRange rad).foldl
          (fun mv dx =>
            if dx * dx + dy * dy > (rad : ℤ) * rad then mv
            else
              if 0 ≤ (idx % w : ℕ) + dx ∧ (idx % w : ℕ) + dx < (w : ℤ) ∧
                  0 ≤ (idx / w : ℕ) + dy ∧ (idx / w : ℕ) + dy < (h : ℤ) then
                min mv (a.getD (((idx / w : ℕ) + dy).toNat * w + ((idx % w : ℕ) + dx).toNat) 0)
              else mv)
          mv)
      255

/-! ## Fold/Finset bridges for the morphology kernels -/

theorem foldl_max_eq_sup {β : Type} [DecidableEq β] (P : β → Prop) [DecidablePred P]
    (g : β → ℕ) :
    ∀ (l : List β) (init : ℕ),
      l.foldl (fun m e => if P e then max m (g e) else m) init =
        max init ((l.toFinset.filter P).sup g) := by
  intro l
  induction l with
  | nil =>
    intro init
    simp
  | cons e t ih =>
    intro init
    rw [List.foldl_cons, ih, List.toFinset_cons, Finset.filter_insert]
    by_cases he : P e
    · rw [if_pos he, if_pos he, Finset.sup_insert]
      rw [max_assoc]
    · rw [if_neg he, if_neg he]

theorem le_foldl_of_le_step {β : Type} (f : ℕ → β → ℕ) (c : ℕ) :
    ∀ (l : List β), (∀ m e, e ∈ l → c ≤ m → c ≤ f m e) →
      ∀ init : ℕ, c ≤ init → c ≤ l.foldl f init := by
  intro l
  induction l with
  | nil => intro _ init h; exact h
  | cons e t ih =>
    intro hstep init h
    exact ih (fun m e he hm => hstep m e (by simp [he]) hm) (f init e)
      (hstep init e (by simp) h)

theorem intRange_toFinset (r : ℕ) :
    (intRange r).toFinset = Finset.Icc (-(r : ℤ)) r := by
  ext z
  simp only [intRange, List.mem_toFinset, List.mem_map, List.mem_range, Finset.mem_Icc]
  constructor
  · rintro ⟨i, hi, rfl⟩
    omega
  · rintro ⟨h1, h2⟩
    exact ⟨(z + r).toNat, by omega, by omega⟩

theorem sup_filter_product (s t : Finset ℤ) (P : ℤ × ℤ → Prop) [DecidablePred P]
    (g : ℤ × ℤ → ℕ) :
    ((s ×ˢ t).filter P).sup g =
      s.sup fun a => (t.filter fun b => P (a, b)).sup fun b => g (a, b) := by
  apply le_antisymm
  · refine Finset.sup_le fun o ho => ?_
    rw [Finset.mem_filter, Finset.mem_product] at ho
    have h1 : o.2 ∈ t.filter fun b => P (o.1, b) := by
      rw [Finset.mem_filter]
      refine ⟨ho.1.2, ?_⟩
      rw [Prod.mk.eta]
      exact ho.2
    have h2 : (fun b => g (o.1, b)) o.2 ≤ (t.filter fun b => P (o.1, b)).sup fun b => g (o.1, b) :=
      @Finset.le_sup ℕ ℤ _ _ (t.filter fun b => P (o.1, b)) (fun b => g (o.1, b)) o.2 h1
    have h3 : ((t.filter fun b => P (o.1, b)).sup fun b => g (o.1, b)) ≤
        s.sup fun a => (t.filter fun b => P (a, b)).sup fun b => g (a, b) :=
      @Finset.le_sup ℕ ℤ _ _ s
        (fun a => (t.filter fun b => P (a, b)).sup fun b => g (a, b)) o.1 ho.1.1
    calc g o = g (o.1, o.2) := by rw [Prod.mk.eta]
      _ ≤ _ := le_trans h2 h3
  · refine Finset.sup_le fun a ha => Finset.sup_le fun b hb => ?_
    rw [Finset.mem_filter] at hb
    have hm : (a, b) ∈ (s ×ˢ t).filter P := by
      rw [Finset.mem_filter, Finset.mem_product]
      exact ⟨⟨ha, hb.1⟩, hb.2⟩
    exact Finset.le_sup hm

theorem pixel_mod (x y w : ℕ) (hx : x < w) : (y * w + x) % w = x := by
  rw [Nat.add_comm, Nat.add_mul_mod_self_right, Nat.mod_eq_of_lt hx]

theorem pixel_div (x y w : ℕ) (hx : x < w) : (y * w + x) / w = y := by
  rw [Nat.add_comm, Nat.add_mul_div_right _ _ (by omega : 0 < w),
    Nat.div_eq_of_lt hx]
  omega

theorem pixel_lt (x y w h : ℕ) (hx : x < w) (hy : y < h) : y * w + x < w * h :=
  calc y * w + x < y * w + w := by omega
    _ = (y + 1) * w := by ring
    _ ≤ h * w := Nat.mul_le_mul_right w (by omega)
    _ = w * h := Nat.mul_comm h w

/-- The per-pixel value of `dilate_alpha`: the sup of the alpha samples over
the in-bounds offsets of the disk `dx² + dy² ≤ r²` (out-of-bounds offsets are
excluded from the sup, and the accumulator's 0 start is absorbed since the sup
itself is over naturals with bottom 0).  Offsets are `(dy, dx)` pairs. -/
theorem dilate_get (a : List ℕ) (w h rad x y : ℕ) (hx : x < w) (hy : y < h) :
    (dilate_alpha a w h rad).getD (y * w + x) 0 =
      ((Finset.Icc (-(rad : ℤ)) rad ×ˢ Finset.Icc (-(rad : ℤ)) rad).filter fun o =>
          o.2 * o.2 + o.1 * o.1 ≤ (rad : ℤ) * rad ∧
          0 ≤ (x : ℤ) + o.2 ∧ (x : ℤ) + o.2 < w ∧ 0 ≤ (y : ℤ) + o.1 ∧ (y : ℤ) + o.1 < h).sup
        fun o => a.getD (((y : ℤ) + o.1).toNat * w + ((x : ℤ) + o.2).toNat) 0 := by
  unfold dilate_alpha
  rw [range_map_getD _ _ _ _ (pixel_lt x y w h hx hy)]
  simp only [pixel_mod x y w hx, pixel_div x y w hx]
  have hinner : ∀ (dy : ℤ) (mv : ℕ),
      (intRange rad).foldl
        (fun mv dx =>
          if dx * dx + dy * dy > (rad : ℤ) * rad then mv
          else
            if 0 ≤ (x : ℤ) + dx ∧ (x : ℤ) + dx < w ∧ 0 ≤ (y : ℤ) + dy ∧ (y : ℤ) + dy < h then
              max mv (a.getD (((y : ℤ) + dy).toNat * w + ((x : ℤ) + dx).toNat) 0)
            else mv)
        mv =
      max mv ((Finset.Icc (-(rad : ℤ)) rad |>.filter fun dx =>
          dx * dx + dy * dy ≤ (rad : ℤ) * rad ∧
          0 ≤ (x : ℤ) + dx ∧ (x : ℤ) + dx < w ∧ 0 ≤ (y : ℤ) + dy ∧ (y : ℤ) + dy < h).sup
        fun dx => a.getD (((y : ℤ) + dy).toNat * w + ((x : ℤ) + dx).toNat) 0) := by
    intro dy mv
    have hfun : (fun (mv : ℕ) (dx : ℤ) =>
        if dx * dx + dy * dy > (rad : ℤ) * rad then mv
        else
          if 0 ≤ (x : ℤ) + dx ∧ (x : ℤ) + dx < w ∧ 0 ≤ (y : ℤ) + dy ∧ (y : ℤ) + dy < h then
            max mv (a.getD (((y : ℤ) + dy).toNat * w + ((x : ℤ) + dx).toNat) 0)
          else mv) =
        fun (mv : ℕ) (dx : ℤ) =>
          if (dx * dx + dy * dy ≤ (rad : ℤ) * rad ∧
              0 ≤ (x : ℤ) + dx ∧ (x : ℤ) + dx < w ∧ 0 ≤ (y : ℤ) + dy ∧ (y : ℤ) + dy < h) then
            max mv (a.getD (((y : ℤ) + dy).toNat * w + ((x : ℤ) + dx).toNat) 0)
          else mv := by
      funext mv dx
      by_cases h1 : dx * dx + dy * dy > (rad : ℤ) * rad
      · rw [if_pos h1, if_neg (by omega)]
      · by_cases h2 : 0 ≤ (x : ℤ) + dx ∧ (x : ℤ) + dx < w ∧ 0 ≤ (y : ℤ) + dy ∧ (y : ℤ) + dy < h
        · rw [if_neg h1, if_pos h2, if_pos ⟨by omega, h2⟩]
        · rw [if_neg h1, if_neg h2, if_neg (by tauto)]
    rw [hfun, foldl_max_eq_sup _ _ _ mv, intRange_toFinset]
  have houter : (fun (mv : ℕ) (dy : ℤ) =>
      (intRange rad).foldl
        (fun mv dx =>
          if dx * dx + dy * dy > (rad : ℤ) * rad then mv
          else
            if 0 ≤ (x : ℤ) + dx ∧ (x : ℤ) + dx < w ∧ 0 ≤ (y : ℤ) + dy ∧ (y : ℤ) + dy < h then
              max mv (a.getD (((y : ℤ) + dy).toNat * w + ((x : ℤ) + dx).toNat) 0)
            else mv)
        mv) =
      fun (mv : ℕ) (dy : ℤ) =>
        if True then
          max mv ((Finset.Icc (-(rad : ℤ)) rad |>.filter fun dx =>
              dx * dx + dy * dy ≤ (rad : ℤ) * rad ∧
              0 ≤ (x : ℤ) + dx ∧ (x : ℤ) + dx < w ∧ 0 ≤ (y : ℤ) + dy ∧ (y : ℤ) + dy < h).sup
            fun dx => a.getD (((y : ℤ) + dy).toNat * w + ((x : ℤ) + dx).toNat) 0)
        else mv := by
    funext mv dy
    rw [hinner dy mv, if_pos trivial]
  rw [houter, foldl_max_eq_sup (fun _ => True) _ _ 0, intRange_toFinset,
    Finset.filter_True, Nat.zero_max, sup_filter_product]

theorem intRange_mem (r : ℕ) (z : ℤ) : z ∈ intRange r ↔ -(r : ℤ) ≤ z ∧ z ≤ r := by
  rw [← List.mem_toFinset, intRange_toFinset, Finset.mem_Icc]

/-- C8: `dilate_alpha` assigns each pixel the maximum alpha over the
in-bounds offsets `(dx, dy)` with `dx² + dy² ≤ r²` (out-of-bounds offsets
excluded from the max), and on the 3×3 mask with only the center at 255 and
radius 1 it produces 255 at the center and its 4 orthogonal neighbors and 0
at the diagonals.  Offsets in the sup are `(dy, dx)` pairs. -/
theorem C8_dilate_disk_max :
    (∀ (a : List ℕ) (w h rad x y : ℕ), x < w → y < h →
      (dilate_alpha a w h rad).getD (y * w + x) 0 =
        ((Finset.Icc (-(rad : ℤ)) rad ×ˢ Finset.Icc (-(rad : ℤ)) rad).filter fun o =>
            o.2 * o.2 + o.1 * o.1 ≤ (rad : ℤ) * rad ∧
            0 ≤ (x : ℤ) + o.2 ∧ (x : ℤ) + o.2 < w ∧
            0 ≤ (y : ℤ) + o.1 ∧ (y : ℤ) + o.1 < h).sup
          fun o => a.getD (((y : ℤ) + o.1).toNat * w + ((x : ℤ) + o.2).toNat) 0) ∧
    dilate_alpha [0, 0, 0, 0, 255, 0, 0, 0, 0] 3 3 1 =
      [0, 255, 0, 255, 255, 255, 0, 255, 0] :=
  ⟨fun a w h rad x y hx hy => dilate_get a w h rad x y hx hy, by decide⟩

/-- Witness for C8's quantified part at the 3×3 center pixel with radius 1. -/
theorem C8_dilate_disk_max_witness :
    (dilate_alpha [0, 0, 0, 0, 255, 0, 0, 0, 0] 3 3 1).getD (1 * 3 + 1) 0 =
      ((Finset.Icc (-(1 : ℤ)) 1 ×ˢ Finset.Icc (-(1 : ℤ)) 1).filter fun o =>
          o.2 * o.2 + o.1 * o.1 ≤ (1 : ℤ) * 1 ∧
          0 ≤ (1 : ℤ) + o.2 ∧ (1 : ℤ) + o.2 < 3 ∧
          0 ≤ (1 : ℤ) + o.1 ∧ (1 : ℤ) + o.1 < 3).sup
        fun o => [0, 0, 0, 0, 255, 0, 0, 0, 0].getD
          (((1 : ℤ) + o.1).toNat * 3 + ((1 : ℤ) + o.2).toNat) 0 :=
  C8_dilate_disk_max.1 [0, 0, 0, 0, 255, 0, 0, 0, 0] 3 3 1 1 1
    (by norm_num) (by norm_num)

/-- C6: `erode_alpha (dilate_alpha mask r) r` is pixel-wise ≥ the original
mask at every pixel, for any radius `r ≥ 0` (the morphological closing is
extensive). -/
theorem C6_close_superset (a : List ℕ) (w h rad : ℕ) (hlen : a.length = w * h)
    (hbytes : ∀ v ∈ a, v ≤ 255) (x y : ℕ) (hx : x < w) (hy : y < h) :
    a.getD (y * w + x) 0 ≤
      (erode_alpha (dilate_alpha a w h rad) w h rad).getD (y * w + x) 0 := by
  have hc255 : a.getD (y * w + x) 0 ≤ 255 :=
    hbytes _ (getD_mem_of_lt (by rw [hlen]; exact pixel_lt x y w h hx hy))
  unfold erode_alpha
  rw [range_map_getD _ _ _ _ (pixel_lt x y w h hx hy)]
  simp only [pixel_mod x y w hx, pixel_div x y w hx]
  refine le_foldl_of_le_step _ _ _ (fun mv dy hdy hmv => ?_) 255 hc255
  refine le_foldl_of_le_step _ _ _ (fun mv' dx hdx hmv' => ?_) mv hmv
  by_cases hdisk : dx * dx + dy * dy > (rad : ℤ) * rad
  · rw [if_pos hdisk]
    exact hmv'
  · rw [if_neg hdisk]
    by_cases hb : 0 ≤ (x : ℤ) + dx ∧ (x : ℤ) + dx < w ∧ 0 ≤ (y : ℤ) + dy ∧ (y : ℤ) + dy < h
    · rw [if_pos hb]
      obtain ⟨hb1, hb2, hb3, hb4⟩ := hb
      refine le_min hmv' ?_
      have hqx : ((x : ℤ) + dx).toNat < w := by omega
      have hqy : ((y : ℤ) + dy).toNat < h := by omega
      rw [dilate_get a w h rad _ _ hqx hqy]
      have hmem : ((-dy, -dx) : ℤ × ℤ) ∈
          (Finset.Icc (-(rad : ℤ)) rad ×ˢ Finset.Icc (-(rad : ℤ)) rad).filter fun o =>
            o.2 * o.2 + o.1 * o.1 ≤ (rad : ℤ) * rad ∧
            0 ≤ (((x : ℤ) + dx).toNat : ℤ) + o.2 ∧ (((x : ℤ) + dx).toNat : ℤ) + o.2 < w ∧
            0 ≤ (((y : ℤ) + dy).toNat : ℤ) + o.1 ∧ (((y : ℤ) + dy).toNat : ℤ) + o.1 < h := by
        rw [Finset.mem_filter, Finset.mem_product, Finset.mem_Icc, Finset.mem_Icc]
        have hdxr : -(rad : ℤ) ≤ dx ∧ dx ≤ rad := (intRange_mem rad dx).mp hdx
        have hdyr : -(rad : ℤ) ≤ dy ∧ dy ≤ rad := (intRange_mem rad dy).mp hdy
        refine ⟨⟨⟨by omega, by omega⟩, by omega, by omega⟩, ?_, by omega, by omega, by omega, by omega⟩
        show -dx * -dx + -dy * -dy ≤ (rad : ℤ) * rad
        nlinarith [hdisk]
      have happ : (fun o : ℤ × ℤ =>
          a.getD (((((y : ℤ) + dy).toNat : ℤ) + o.1).toNat * w +
            ((((x : ℤ) + dx).toNat : ℤ) + o.2).toNat) 0) ((-dy, -dx) : ℤ × ℤ) =
          a.getD (y * w + x) 0 := by
        have e1 : ((((y : ℤ) + dy).toNat : ℤ) + -dy).toNat = y := by omega
        have e2 : ((((x : ℤ) + dx).toNat : ℤ) + -dx).toNat = x := by omega
        simp only
        rw [e1, e2]
      calc a.getD (y * w + x) 0 = _ := happ.symm
        _ ≤ _ := @Finset.le_sup ℕ (ℤ × ℤ) _ _ _
            (fun o : ℤ × ℤ =>
              a.getD (((((y : ℤ) + dy).toNat : ℤ) + o.1).toNat * w +
                ((((x : ℤ) + dx).toNat : ℤ) + o.2).toNat) 0) ((-dy, -dx) : ℤ × ℤ) hmem
    · rw [if_neg hb]
      exact hmv'

/-- Witness for C6 at the 3×3 single-center-pixel mask with radius 1,
center pixel. -/
theorem C6_close_superset_witness :
    [0, 0, 0, 0, 255, 0, 0, 0, 0].getD (1 * 3 + 1) 0 ≤
      (erode_alpha (dilate_alpha [0, 0, 0, 0, 255, 0, 0, 0, 0] 3 3 1) 3 3 1).getD
        (1 * 3 + 1) 0 :=
  C6_close_superset [0, 0, 0, 0, 255, 0, 0, 0, 0] 3 3 1 (by decide) (by decide)
    1 1 (by norm_num) (by norm_num)

/-! ## C5: the centroid scan -/

theorem fold_min_eq_inf' {s : Finset ℕ} (hne : s.Nonempty) (b : ℕ) (f : ℕ → ℕ) :
    s.fold min b f = min b (s.inf' hne f) := by
  induction hne using Finset.Nonempty.cons_induction with
  | singleton a =>
    rw [Finset.fold_singleton, Finset.inf'_singleton]
    exact min_comm _ _
  | cons a s ha hs ih =>
    rw [Finset.fold_cons, ih, Finset.inf'_cons, inf_eq_min, min_left_comm]

theorem fold_max_eq_sup' {s : Finset ℕ} (hne : s.Nonempty) (b : ℕ) (f : ℕ → ℕ) :
    s.fold max b f = max b (s.sup' hne f) := by
  induction hne using Finset.Nonempty.cons_induction with
  | singleton a =>
    rw [Finset.fold_singleton, Finset.sup'_singleton]
    exact max_comm _ _
  | cons a s ha hs ih =>
    rw [Finset.fold_cons, ih, Finset.sup'_cons, sup_eq_max, max_left_comm]

/-- The loop invariant of the `calculate_centroid` scan: after the first `n`
pixels, the accumulators hold the sum, count and min/max (folded against the
initial values `w`, `0`, `h`, `0`) of the qualifying pixels below `n`. -/
theorem centroid_fold (a : List ℕ) (w h t : ℕ) :
    ∀ n, (List.range n).foldl (centStep a w t) ⟨0, 0, 0, w, 0, h, 0⟩ =
      { sum_x := ∑ i in (Finset.range n).filter (fun i => t ≤ a.getD i 0), ((i % w : ℕ) : ℚ),
        sum_y := ∑ i in (Finset.range n).filter (fun i => t ≤ a.getD i 0), ((i / w : ℕ) : ℚ),
        count := ((Finset.range n).filter (fun i => t ≤ a.getD i 0)).card,
        min_x := ((Finset.range n).filter (fun i => t ≤ a.getD i 0)).fold min w (· % w),
        max_x := ((Finset.range n).filter (fun i => t ≤ a.getD i 0)).fold max 0 (· % w),
        min_y := ((Finset.range n).filter (fun i => t ≤ a.getD i 0)).fold min h (· / w),
        max_y := ((Finset.range n).filter (fun i => t ≤ a.getD i 0)).fold max 0 (· / w) } := by
  intro n
  induction n with
  | zero => simp
  | succ n ih =>
    rw [List.range_succ, List.foldl_append, List.foldl_cons, List.foldl_nil, ih,
      Finset.range_succ, Finset.filter_insert]
    have hnotmem : n ∉ (Finset.range n).filter (fun i => t ≤ a.getD i 0) := by
      simp
    by_cases hq : t ≤ a.getD n 0
    · rw [if_pos hq]
      simp only [centStep, hq, if_true, if_pos]
      rw [Finset.sum_insert hnotmem, Finset.sum_insert hnotmem,
        Finset.card_insert_of_not_mem hnotmem,
        Finset.fold_insert hnotmem, Finset.fold_insert hnotmem,
        Finset.fold_insert hnotmem, Finset.fold_insert hnotmem]
      congr 1 <;> first
        | rfl
        | rw [add_comm]
        | rw [inf_comm]
        | rw [sup_comm]
    · rw [if_neg hq]
      simp only [centStep, hq, if_false]

/-- C5: `calculate_centroid` returns area 0, the integer-division image
center and the full-image bounding box when no pixel reaches the threshold;
otherwise the count, the exact coordinate means, and the inclusive bounding
box of the qualifying pixels.  In particular the all-zero 4×4 mask gives
area 0 and centroid (2, 2), and the all-255 4×4 mask gives area 16 and
centroid (1.5, 1.5). -/
theorem C5_calculate_centroid :
    (∀ (a : List ℕ) (w h t : ℕ) (Q : Finset ℕ),
      Q = (Finset.range (w * h)).filter (fun i => t ≤ a.getD i 0) →
      (Q = ∅ →
        calculate_centroid a w h t =
          ⟨((w / 2 : ℕ) : ℚ), ((h / 2 : ℕ) : ℚ), 0, 0, 0, w, h⟩) ∧
      (∀ hne : Q.Nonempty,
        calculate_centroid a w h t =
          { x := (∑ i in Q, ((i % w : ℕ) : ℚ)) / (Q.card : ℚ),
            y := (∑ i in Q, ((i / w : ℕ) : ℚ)) / (Q.card : ℚ),
            area := Q.card,
            bounds_x := Q.inf' hne (· % w),
            bounds_y := Q.inf' hne (· / w),
            bounds_width := Q.sup' hne (· % w) - Q.inf' hne (· % w) + 1,
            bounds_height := Q.sup' hne (· / w) - Q.inf' hne (· / w) + 1 })) ∧
    calculate_centroid (List.replicate 16 0) 4 4 128 = ⟨2, 2, 0, 0, 0, 4, 4⟩ ∧
    calculate_centroid (List.replicate 16 255) 4 4 128 = ⟨3 / 2, 3 / 2, 16, 0, 0, 4, 4⟩ := by
  refine ⟨fun a w h t Q hQ => ?_, ?_, ?_⟩
  · have hst := centroid_fold a w h t (w * h)
    constructor
    · intro hempty
      rw [hQ] at hempty
      simp only [calculate_centroid, hst, hempty]
      simp
    · intro hne
      have hne' : ((Finset.range (w * h)).filter (fun i => t ≤ a.getD i 0)).Nonempty := by
        rw [← hQ]
        exact hne
      have hw : 0 < w := by
        obtain ⟨i, hi⟩ := hne'
        rw [Finset.mem_filter, Finset.mem_range] at hi
        rcases Nat.eq_zero_or_pos w with hw0 | hw0
        · subst hw0
          simp at hi
        · exact hw0
      have hcard : ((Finset.range (w * h)).filter (fun i => t ≤ a.getD i 0)).card ≠ 0 :=
        Nat.pos_iff_ne_zero.mp hne'.card_pos
      have hinfx : ((Finset.range (w * h)).filter (fun i => t ≤ a.getD i 0)).inf' hne' (· % w) ≤ w := by
        obtain ⟨i, hi⟩ := hne'
        exact le_trans (Finset.inf'_le _ hi) (le_of_lt (Nat.mod_lt i hw))
      have hinfy : ((Finset.range (w * h)).filter (fun i => t ≤ a.getD i 0)).inf' hne' (· / w) ≤ h := by
        obtain ⟨i, hi⟩ := hne'
        have hih : i / w < h := by
          rw [Finset.mem_filter, Finset.mem_range] at hi
          exact Nat.div_lt_of_lt_mul hi.1
        exact le_trans (Finset.inf'_le _ hi) (le_of_lt hih)
      subst hQ
      simp only [calculate_centroid, hst]
      rw [if_neg hcard]
      simp only [Centroid.mk.injEq]
      refine ⟨trivial, trivial, trivial, ?_, ?_, ?_, ?_⟩
      · rw [fold_min_eq_inf' hne', min_eq_right hinfx]
      · rw [fold_min_eq_inf' hne', min_eq_right hinfy]
      · rw [fold_min_eq_inf' hne', min_eq_right hinfx,
          fold_max_eq_sup' hne', max_eq_right (Nat.zero_le _)]
      · rw [fold_min_eq_inf' hne', min_eq_right hinfy,
          fold_max_eq_sup' hne', max_eq_right (Nat.zero_le _)]
  · norm_num [calculate_centroid, centStep, List.range_succ, List.foldl_append,
      List.replicate]
  · norm_num [calculate_centroid, centStep, List.range_succ, List.foldl_append,
      List.replicate]

/-- Witness for C5's quantified part on the 1×1 mask `[200]` with
threshold 128 (the single pixel qualifies). -/
theorem C5_calculate_centroid_witness :
    calculate_centroid [200] 1 1 128 =
      { x := (∑ i in (Finset.range (1 * 1)).filter (fun i => 128 ≤ [200].getD i 0),
            ((i % 1 : ℕ) : ℚ)) /
          ((((Finset.range (1 * 1)).filter (fun i => 128 ≤ [200].getD i 0)).card : ℕ) : ℚ),
        y := (∑ i in (Finset.range (1 * 1)).filter (fun i => 128 ≤ [200].getD i 0),
            ((i / 1 : ℕ) : ℚ)) /
          ((((Finset.range (1 * 1)).filter (fun i => 128 ≤ [200].getD i 0)).card : ℕ) : ℚ),
        area := ((Finset.range (1 * 1)).filter (fun i => 128 ≤ [200].getD i 0)).card,
        bounds_x := ((Finset.range (1 * 1)).filter (fun i => 128 ≤ [200].getD i 0)).inf'
          (by decide) (· % 1),
        bounds_y := ((Finset.range (1 * 1)).filter (fun i => 128 ≤ [200].getD i 0)).inf'
          (by decide) (· / 1),
        bounds_width := ((Finset.range (1 * 1)).filter (fun i => 128 ≤ [200].getD i 0)).sup'
            (by decide) (· % 1) -
          ((Finset.range (1 * 1)).filter (fun i => 128 ≤ [200].getD i 0)).inf'
            (by decide) (· % 1) + 1,
        bounds_height := ((Finset.range (1 * 1)).filter (fun i => 128 ≤ [200].getD i 0)).sup'
            (by decide) (· / 1) -
          ((Finset.range (1 * 1)).filter (fun i => 128 ≤ [200].getD i 0)).inf'
            (by decide) (· / 1) + 1 } :=
  (C5_calculate_centroid.1 [200] 1 1 128 _ rfl).2 (by decide)

/-! ## C3: the edge smoother's box-blur boundary handling -/

/-- Modelled from the spec's words, for comparison with the source's pass:
a horizontal box-blur pass whose window is the offsets `-radius ..= radius`
centered on each pixel, averaging only the in-bounds samples with the
divisor equal to their number (the window shrinks at both borders). -/
def blurPassHSpec (a : List ℕ) (w h r : ℕ) : List ℕ :=
  (List.range (w * h)).map fun idx =>
    let sc := (intRange r).foldl
      (fun (sc : ℕ × ℕ) o =>
        if 0 ≤ ((idx % w : ℕ) : ℤ) + o ∧ ((idx % w : ℕ) : ℤ) + o < (w : ℤ) then
          (sc.1 + a.getD ((idx / w) * w + (((idx % w : ℕ) : ℤ) + o).toNat) 0, sc.2 + 1)
        else sc)
      (0, 0)
    sc.1 / sc.2

/-- Modelled from the spec's words: the matching vertical box-blur pass. -/
def blurPassVSpec (a : List ℕ) (w h r : ℕ) : List ℕ :=
  (List.range (w * h)).map fun idx =>
    let sc := (intRange r).foldl
      (fun (sc : ℕ × ℕ) o =>
        if 0 ≤ ((idx / w : ℕ) : ℤ) + o ∧ ((idx / w : ℕ) : ℤ) + o < (h : ℤ) then
          (sc.1 + a.getD ((((idx / w : ℕ) : ℤ) + o).toNat * w + idx % w) 0, sc.2 + 1)
        else sc)
      (0, 0)
    sc.1 / sc.2

/-- Modelled from the spec's words: `smooth_alpha` with the shrinking-window
passes in place of the source's clamping ones. -/
def smooth_alphaSpec (a : List ℕ) (w h : ℕ) (strength : ℚ) : List ℕ :=
  let r := (⌈strength * 2⌉).toNat
  if r = 0 then a
  else
    let temp := blurPassHSpec a w h r
    let res := blurPassVSpec temp w h r
    (List.range (w * h)).map fun i =>
      (round ((a.getD i 0 : ℚ) * (1 - strength) + (res.getD i 0 : ℚ) * strength)).toNat

theorem foldl_sum_count (f : ℕ → ℕ) (P : ℕ → Prop) [DecidablePred P] :
    ∀ n, (List.range n).foldl
        (fun (sc : ℕ × ℕ) dx => if P dx then (sc.1 + f dx, sc.2 + 1) else sc) (0, 0) =
      (∑ dx in (Finset.range n).filter P, f dx, ((Finset.range n).filter P).card) := by
  intro n
  induction n with
  | zero => simp
  | succ n ih =>
    rw [List.range_succ, List.foldl_append, List.foldl_cons, List.foldl_nil, ih,
      Finset.range_succ, Finset.filter_insert]
    have hnm : n ∉ (Finset.range n).filter P := by simp
    by_cases hp : P n
    · rw [if_pos hp, if_pos hp, Finset.sum_insert hnm, Finset.card_insert_of_not_mem hnm]
      simp [add_comm]
    · rw [if_neg hp, if_neg hp]

/-- C3 counterexample to the claim as stated: on the 1-row mask `[0, 255]`
with radius 1 (softness 1/2), the horizontal pass's left-border pixel clamps
its window to index 0 and samples the edge pixel twice with divisor 3,
producing `(0+0+255)/3 = 85`; the spec's shrinking window would average the
two in-bounds samples to `(0+255)/2 = 127`.  Through the blend the final
outputs differ as well (43 vs 64 at pixel 0). -/
theorem C3_left_border_counterexample :
    blurPassH [0, 255] 2 1 1 = [85, 127] ∧
    blurPassHSpec [0, 255] 2 1 1 = [127, 127] ∧
    smooth_alpha [0, 255] 2 1 (1 / 2) = [43, 191] ∧
    smooth_alphaSpec [0, 255] 2 1 (1 / 2) = [64, 191] := by
  refine ⟨by decide, by decide, ?_, ?_⟩ <;>
    · norm_num [smooth_alpha, smooth_alphaSpec, blurPassH, blurPassV, blurPassHSpec,
        blurPassVSpec, intRange, List.range_succ, round_eq]
      try decide

/-- C3 (amended): each pixel of each box-blur pass inside the edge smoother
averages the samples at indices clamped to the image (the `saturating_sub`
clamps the window to index 0 at the left/top border, so the edge pixel is
sampled repeatedly there), with the divisor equal to the number of window
offsets whose clamped index is in bounds — the window only shrinks at the
right/bottom border, not at the left/top one. -/
theorem C3_box_blur_pass_clamped (a : List ℕ) (w h r x y : ℕ)
    (hx : x < w) (hy : y < h) :
    (blurPassH a w h r).getD (y * w + x) 0 =
      (∑ o in (Finset.Icc (-(r : ℤ)) r).filter (fun o => ((x : ℤ) + o).toNat < w),
          a.getD (y * w + ((x : ℤ) + o).toNat) 0) /
        max ((Finset.Icc (-(r : ℤ)) r).filter (fun o => ((x : ℤ) + o).toNat < w)).card 1 ∧
    (blurPassV a w h r).getD (y * w + x) 0 =
      (∑ o in (Finset.Icc (-(r : ℤ)) r).filter (fun o => ((y : ℤ) + o).toNat < h),
          a.getD (((y : ℤ) + o).toNat * w + x) 0) /
        max ((Finset.Icc (-(r : ℤ)) r).filter (fun o => ((y : ℤ) + o).toNat < h)).card 1 := by
  have hbij : ∀ (g : ℕ → ℕ) (z bound : ℕ),
      (∑ dx in (Finset.range (2 * r + 1)).filter (fun dx => z + dx - r < bound),
          g (z + dx - r)) =
        ∑ o in (Finset.Icc (-(r : ℤ)) r).filter (fun o => ((z : ℤ) + o).toNat < bound),
          g (((z : ℤ) + o).toNat) := by
    intro g z bound
    refine Finset.sum_nbij' (fun dx => (dx : ℤ) - r) (fun o => (o + r).toNat) ?_ ?_ ?_ ?_ ?_
    · intro dx hdx
      rw [Finset.mem_filter, Finset.mem_range] at hdx
      rw [Finset.mem_filter, Finset.mem_Icc]
      simp only []
      refine ⟨⟨by omega, by omega⟩, by omega⟩
    · intro o ho
      rw [Finset.mem_filter, Finset.mem_Icc] at ho
      rw [Finset.mem_filter, Finset.mem_range]
      simp only [] at ho ⊢
      refine ⟨by omega, by omega⟩
    · intro dx hdx
      rw [Finset.mem_filter, Finset.mem_range] at hdx
      simp only []
      omega
    · intro o ho
      rw [Finset.mem_filter, Finset.mem_Icc] at ho
      simp only [] at ho ⊢
      omega
    · intro dx hdx
      rw [Finset.mem_filter, Finset.mem_range] at hdx
      simp only []
      have hidx : z + dx - r = ((z : ℤ) + ((dx : ℤ) - r)).toNat := by omega
      rw [hidx]
  have hcard : ∀ (z bound : ℕ),
      ((Finset.range (2 * r + 1)).filter (fun dx => z + dx - r < bound)).card =
        ((Finset.Icc (-(r : ℤ)) r).filter (fun o => ((z : ℤ) + o).toNat < bound)).card := by
    intro z bound
    refine Finset.card_nbij' (fun dx => (dx : ℤ) - r) (fun o => (o + r).toNat) ?_ ?_ ?_ ?_
    · intro dx hdx
      rw [Finset.mem_filter, Finset.mem_range] at hdx
      rw [Finset.mem_filter, Finset.mem_Icc]
      simp only []
      refine ⟨⟨by omega, by omega⟩, by omega⟩
    · intro o ho
      rw [Finset.mem_filter, Finset.mem_Icc] at ho
      rw [Finset.mem_filter, Finset.mem_range]
      simp only [] at ho ⊢
      refine ⟨by omega, by omega⟩
    · intro dx hdx
      rw [Finset.mem_filter, Finset.mem_range] at hdx
      simp only []
      omega
    · intro o ho
      rw [Finset.mem_filter, Finset.mem_Icc] at ho
      simp only [] at ho ⊢
      omega
  constructor
  · unfold blurPassH
    rw [range_map_getD _ _ _ _ (pixel_lt x y w h hx hy)]
    simp only [pixel_mod x y w hx, pixel_div x y w hx]
    rw [foldl_sum_count (fun dx => a.getD (y * w + (x + dx - r)) 0)
      (fun dx => x + dx - r < w) (2 * r + 1)]
    simp only
    rw [← hcard x w]
    congr 1
    have hb := hbij (fun u => a.getD (y * w + u) 0) x w
    simp only at hb
    rw [← hb]
  · unfold blurPassV
    rw [range_map_getD _ _ _ _ (pixel_lt x y w h hx hy)]
    simp only [pixel_mod x y w hx, pixel_div x y w hx]
    rw [foldl_sum_count (fun dy => a.getD ((y + dy - r) * w + x) 0)
      (fun dy => y + dy - r < h) (2 * r + 1)]
    simp only
    rw [← hcard y h]
    congr 1
    have hb := hbij (fun u => a.getD (u * w + x) 0) y h
    simp only at hb
    rw [← hb]

/-- Witness for C3's amended theorem on the 1-row mask `[0, 255]` with
radius 1 at the left-border pixel. -/
theorem C3_box_blur_pass_clamped_witness :
    (blurPassH [0, 255] 2 1 1).getD (0 * 2 + 0) 0 =
      (∑ o in (Finset.Icc (-(1 : ℤ)) 1).filter (fun o => ((0 : ℤ) + o).toNat < 2),
          [0, 255].getD (0 * 2 + ((0 : ℤ) + o).toNat) 0) /
        max ((Finset.Icc (-(1 : ℤ)) 1).filter (fun o => ((0 : ℤ) + o).toNat < 2)).card 1 ∧
    (blurPassV [0, 255] 2 1 1).getD (0 * 2 + 0) 0 =
      (∑ o in (Finset.Icc (-(1 : ℤ)) 1).filter (fun o => ((0 : ℤ) + o).toNat < 1),
          [0, 255].getD (((0 : ℤ) + o).toNat * 2 + 0) 0) /
        max ((Finset.Icc (-(1 : ℤ)) 1).filter (fun o => ((0 : ℤ) + o).toNat < 1)).card 1 :=
  C3_box_blur_pass_clamped [0, 255] 2 1 1 0 0 (by norm_num) (by norm_num)

/-- C9: with `edge_softness ≤ 0`, `normalize_matte` leaves the caller's
buffer byte-identical (no smoothing, no premultiplication) and returns the
centroid of the original alpha plane at the fixed threshold 128. -/
theorem C9_normalize_matte_softness_zero (image : List ℕ) (w h : ℕ)
    (softness : ℚ) (hs : softness ≤ 0) :
    (normalize_matte image w h softness).1 = image ∧
    (normalize_matte image w h softness).2 =
      calculate_centroid (alphaPlane image w h) w h 128 := by
  have hcond : ¬ 0 < softness := not_lt.mpr hs
  constructor <;> simp [normalize_matte, hcond]

/-- Witness for C9 on a 1×1 RGBA buffer with softness 0. -/
theorem C9_normalize_matte_softness_zero_witness :
    (normalize_matte [10, 20, 30, 40] 1 1 0).1 = [10, 20, 30, 40] ∧
    (normalize_matte [10, 20, 30, 40] 1 1 0).2 =
      calculate_centroid (alphaPlane [10, 20, 30, 40] 1 1) 1 1 128 :=
  C9_normalize_matte_softness_zero [10, 20, 30, 40] 1 1 0 (by norm_num)

/-! ## `mipmap.rs` — mipmap pyramid and level selection -/

/-- `MipmapLevel` from `mipmap.rs`. -/
structure MipmapLevel where
  data : List ℕ
  width : ℕ
  height : ℕ
deriving DecidableEq, Repr

/-- `downsample_2x` from `mipmap.rs`, parametrized by the two scalar
transfer functions (the source's `srgb_to_linear` / `linear_to_srgb` are
transcendental `f32` functions — `powf(2.4)` — outside the exact fragment;
no claim depends on their values).  Each destination pixel accumulates the
2×2 source block `(sy + dy) * width + (sx + dx)` under the source's
`src_idx + 3 < data.len()` guard, divides by the fixed constant 4, and
converts back; the alpha channel averages directly and rounds.  The source
writes destination pixels sequentially into a preallocated buffer in
row-major order; the embedding produces the same list by concatenation. -/
def downsamplePixel (s2l : ℕ → ℚ) (l2s : ℚ → ℕ) (data : List ℕ)
    (width : ℕ) (y x : ℕ) : List ℕ :=
  let acc := [(0, 0), (0, 1), (1, 0), (1, 1)].foldl
    (fun (s : ℚ × ℚ × ℚ × ℚ) (dydx : ℕ × ℕ) =>
      let src := ((y * 2 + dydx.1) * width + (x * 2 + dydx.2)) * 4
      if src + 3 < data.length then
        (s.1 + s2l (data.getD src 0), s.2.1 + s2l (data.getD (src + 1) 0),
         s.2.2.1 + s2l (data.getD (src + 2) 0),
         s.2.2.2 + (data.getD (src + 3) 0 : ℚ))
      else s)
    (0, 0, 0, 0)
  [l2s (acc.1 / 4), l2s (acc.2.1 / 4), l2s (acc.2.2.1 / 4),
    (round (acc.2.2.2 / 4)).toNat]

def downsample_2x (s2l : ℕ → ℚ) (l2s : ℚ → ℕ) (data : List ℕ)
    (width height : ℕ) : List ℕ :=
  (List.range (height / 2)).flatMap fun y =>
    (List.range (width / 2)).flatMap fun x =>
      downsamplePixel s2l l2s data width y x

/-- The `for _ in 1..levels` loop of `generate_mipmaps`: produce `n` further
levels, recording `max(dim/2, 1)` dimensions while downsampling the carried
buffer. -/
def mipLoop (s2l : ℕ → ℚ) (l2s : ℚ → ℕ) : ℕ → List ℕ → ℕ → ℕ → List MipmapLevel
  | 0, _, _, _ => []
  | n + 1, cd, cw, ch =>
    ⟨downsample_2x s2l l2s cd cw ch, max (cw / 2) 1, max (ch / 2) 1⟩ ::
      mipLoop s2l l2s n (downsample_2x s2l l2s cd cw ch) (max (cw / 2) 1) (max (ch / 2) 1)

/-- `generate_mipmaps` from `mipmap.rs`: level 0 is the original, followed
by `levels - 1` downsampled levels. -/
def generate_mipmaps (s2l : ℕ → ℚ) (l2s : ℚ → ℕ) (image : List ℕ)
    (w h levels : ℕ) : List MipmapLevel :=
  ⟨image, w, h⟩ :: mipLoop s2l l2s (levels - 1) image w h

/-- `select_mipmap_level` from `mipmap.rs`.  The source computes
`floor(log2(source/output))` in `f32`; for positive sizes this equals
`Nat.log 2` of the natural quotient (the floats are idealized as exact
real arithmetic). -/
def select_mipmap_level (output_size source_size mipmap_count : ℕ) : ℕ :=
  if source_size ≤ output_size then 0
  else min (Nat.log 2 (source_size / output_size)) (mipmap_count - 1)

theorem flatMap_const_len_length {α β : Type} (f : β → List α) (k : ℕ) :
    ∀ l : List β, (∀ b ∈ l, (f b).length = k) →
      (l.flatMap f).length = l.length * k := by
  intro l
  induction l with
  | nil => intro _; simp
  | cons b t ih =>
    intro hall
    rw [List.flatMap_cons, List.length_append, hall b (by simp),
      ih fun b hb => hall b (by simp [hb]), List.length_cons]
    ring

theorem downsamplePixel_length (s2l : ℕ → ℚ) (l2s : ℚ → ℕ) (data : List ℕ)
    (width y x : ℕ) : (downsamplePixel s2l l2s data width y x).length = 4 := rfl

theorem downsample_length (s2l : ℕ → ℚ) (l2s : ℚ → ℕ) (data : List ℕ)
    (width height : ℕ) :
    (downsample_2x s2l l2s data width height).length =
      (width / 2) * (height / 2) * 4 := by
  unfold downsample_2x
  rw [flatMap_const_len_length
      (fun y => (List.range (width / 2)).flatMap fun x =>
        downsamplePixel s2l l2s data width y x)
      ((width / 2) * 4) (List.range (height / 2)) (fun y _ => by
        rw [flatMap_const_len_length
          (fun x => downsamplePixel s2l l2s data width y x) 4
          (List.range (width / 2)) (fun x _ => rfl), List.length_range]),
    List.length_range]
  ring

/-- Invariant of the mipmap loop: as long as both carried dimensions stay
at least `2^n`, every produced level's buffer length matches its recorded
dimensions, and consecutive dimensions follow `max(dim/2, 1)`. -/
theorem mipLoop_spec (s2l : ℕ → ℚ) (l2s : ℚ → ℕ) :
    ∀ (n : ℕ) (cd : List ℕ) (cw ch : ℕ),
      cd.length = cw * ch * 4 → 2 ^ n ≤ cw → 2 ^ n ≤ ch →
      (mipLoop s2l l2s n cd cw ch).length = n ∧
      (∀ k, k < n →
        ((⟨cd, cw, ch⟩ :: mipLoop s2l l2s n cd cw ch : List MipmapLevel).getD (k + 1)
            ⟨[], 0, 0⟩).width =
          max (((⟨cd, cw, ch⟩ :: mipLoop s2l l2s n cd cw ch : List MipmapLevel).getD k
            ⟨[], 0, 0⟩).width / 2) 1 ∧
        ((⟨cd, cw, ch⟩ :: mipLoop s2l l2s n cd cw ch : List MipmapLevel).getD (k + 1)
            ⟨[], 0, 0⟩).height =
          max (((⟨cd, cw, ch⟩ :: mipLoop s2l l2s n cd cw ch : List MipmapLevel).getD k
            ⟨[], 0, 0⟩).height / 2) 1 ∧
        ((⟨cd, cw, ch⟩ :: mipLoop s2l l2s n cd cw ch : List MipmapLevel).getD (k + 1)
            ⟨[], 0, 0⟩).data.length =
          ((⟨cd, cw, ch⟩ :: mipLoop s2l l2s n cd cw ch : List MipmapLevel).getD (k + 1)
              ⟨[], 0, 0⟩).width *
            ((⟨cd, cw, ch⟩ :: mipLoop s2l l2s n cd cw ch : List MipmapLevel).getD (k + 1)
              ⟨[], 0, 0⟩).height * 4) := by
  intro n
  induction n with
  | zero =>
    intro cd cw ch _ _ _
    exact ⟨rfl, fun k hk => absurd hk (Nat.not_lt_zero k)⟩
  | succ n ih =>
    intro cd cw ch hlen h2w h2h
    have hcw2 : 2 ≤ cw := le_trans (Nat.pow_le_pow_right (by norm_num) (by omega) :
      (2 : ℕ) ^ 1 ≤ 2 ^ (n + 1)) h2w
    have hch2 : 2 ≤ ch := le_trans (Nat.pow_le_pow_right (by norm_num) (by omega) :
      (2 : ℕ) ^ 1 ≤ 2 ^ (n + 1)) h2h
    have hnw : max (cw / 2) 1 = cw / 2 := max_eq_left (by omega)
    have hnh : max (ch / 2) 1 = ch / 2 := max_eq_left (by omega)
    have hndlen : (downsample_2x s2l l2s cd cw ch).length = (cw / 2) * (ch / 2) * 4 :=
      downsample_length s2l l2s cd cw ch
    have h2w' : 2 ^ n ≤ cw / 2 := by
      rw [Nat.le_div_iff_mul_le (by norm_num)]
      calc 2 ^ n * 2 = 2 ^ (n + 1) := (pow_succ 2 n).symm
        _ ≤ cw := h2w
    have h2h' : 2 ^ n ≤ ch / 2 := by
      rw [Nat.le_div_iff_mul_le (by norm_num)]
      calc 2 ^ n * 2 = 2 ^ (n + 1) := (pow_succ 2 n).symm
        _ ≤ ch := h2h
    obtain ⟨ihlen, ihrec⟩ := ih (downsample_2x s2l l2s cd cw ch) (cw / 2) (ch / 2)
      hndlen h2w' h2h'
    constructor
    · show (_ :: mipLoop s2l l2s n _ _ _).length = n + 1
      rw [List.length_cons, hnw, hnh, ihlen]
    · intro k hk
      cases k with
      | zero =>
        refine ⟨rfl, rfl, ?_⟩
        show (downsample_2x s2l l2s cd cw ch).length = max (cw / 2) 1 * max (ch / 2) 1 * 4
        rw [hnw, hnh, hndlen]
      | succ j =>
        have hj : j < n := by omega
        have hrecj := ihrec j hj
        simp only [List.getD_cons_succ] at hrecj ⊢
        rw [show mipLoop s2l l2s (n + 1) cd cw ch =
            ⟨downsample_2x s2l l2s cd cw ch, max (cw / 2) 1, max (ch / 2) 1⟩ ::
              mipLoop s2l l2s n (downsample_2x s2l l2s cd cw ch) (max (cw / 2) 1)
                (max (ch / 2) 1) from rfl, hnw, hnh]
        simp only [List.getD_cons_succ]
        exact hrecj

/-- Concrete instantiations of the transfer-function parameters, used to
evaluate the parametric mipmap embedding at concrete inputs (the structural
claims hold for arbitrary transfer functions). -/
def toLinearId : ℕ → ℚ := fun v => (v : ℚ)

/-- Companion concrete inverse transfer function (floor back to a byte). -/
def fromLinearId : ℚ → ℕ := fun q => q.floor.toNat

/-- C2 (amended): for RGBA input of length `w*h*4` with `levels ≥ 1` and
both dimensions at least `2^(levels-1)` — so that no dimension collapses to
1 before the last level — `generate_mipmaps` returns `levels` entries whose
level-0 buffer is byte-identical to the input, whose recorded dimensions
follow `max(1, dim/2)`, and whose every buffer length equals the recorded
`width * height * 4`. -/
theorem C2_generate_mipmaps_invariants (s2l : ℕ → ℚ) (l2s : ℚ → ℕ)
    (image : List ℕ) (w h levels : ℕ) (hl : 1 ≤ levels)
    (hlen : image.length = w * h * 4)
    (hw2 : 2 ^ (levels - 1) ≤ w) (hh2 : 2 ^ (levels - 1) ≤ h) :
    (generate_mipmaps s2l l2s image w h levels).length = levels ∧
    ((generate_mipmaps s2l l2s image w h levels).getD 0 ⟨[], 0, 0⟩).data = image ∧
    (∀ k, k + 1 < levels →
      ((generate_mipmaps s2l l2s image w h levels).getD (k + 1) ⟨[], 0, 0⟩).width =
        max (((generate_mipmaps s2l l2s image w h levels).getD k ⟨[], 0, 0⟩).width / 2) 1 ∧
      ((generate_mipmaps s2l l2s image w h levels).getD (k + 1) ⟨[], 0, 0⟩).height =
        max (((generate_mipmaps s2l l2s image w h levels).getD k ⟨[], 0, 0⟩).height / 2) 1) ∧
    (∀ k, k < levels →
      ((generate_mipmaps s2l l2s image w h levels).getD k ⟨[], 0, 0⟩).data.length =
        ((generate_mipmaps s2l l2s image w h levels).getD k ⟨[], 0, 0⟩).width *
          ((generate_mipmaps s2l l2s image w h levels).getD k ⟨[], 0, 0⟩).height * 4) := by
  obtain ⟨hlooplen, hrec⟩ := mipLoop_spec s2l l2s (levels - 1) image w h hlen hw2 hh2
  refine ⟨?_, rfl, ?_, ?_⟩
  · show (_ :: mipLoop s2l l2s (levels - 1) image w h).length = levels
    rw [List.length_cons, hlooplen]
    omega
  · intro k hk
    have := hrec k (by omega)
    exact ⟨this.1, this.2.1⟩
  · intro k hk
    cases k with
    | zero => exact hlen
    | succ j => exact (hrec j (by omega)).2.2

/-- C2 counterexample to the claim as stated: for the 1×1 input with
`levels = 2`, level 1's recorded dimensions are `max(1, 1/2) = 1 × 1`, but
`downsample_2x` computes its output size as `width/2 = 0`, so the buffer is
empty and its length 0 differs from the recorded `1 * 1 * 4`. -/
theorem C2_dimension_one_counterexample :
    ((generate_mipmaps toLinearId fromLinearId [1, 2, 3, 4] 1 1 2).getD 1
        ⟨[], 0, 0⟩).width = 1 ∧
    ((generate_mipmaps toLinearId fromLinearId [1, 2, 3, 4] 1 1 2).getD 1
        ⟨[], 0, 0⟩).height = 1 ∧
    ((generate_mipmaps toLinearId fromLinearId [1, 2, 3, 4] 1 1 2).getD 1
        ⟨[], 0, 0⟩).data.length = 0 ∧
    (0 : ℕ) ≠ 1 * 1 * 4 := by
  refine ⟨rfl, rfl, rfl, by decide⟩

/-- Witness for C2's amended theorem at a 2×2 all-zero RGBA image with two
levels. -/
theorem C2_generate_mipmaps_invariants_witness :
    (generate_mipmaps toLinearId fromLinearId (List.replicate 16 0) 2 2 2).length = 2 ∧
    ((generate_mipmaps toLinearId fromLinearId (List.replicate 16 0) 2 2 2).getD 0
        ⟨[], 0, 0⟩).data = List.replicate 16 0 ∧
    (∀ k, k + 1 < 2 →
      ((generate_mipmaps toLinearId fromLinearId (List.replicate 16 0) 2 2 2).getD (k + 1)
          ⟨[], 0, 0⟩).width =
        max (((generate_mipmaps toLinearId fromLinearId (List.replicate 16 0) 2 2 2).getD k
          ⟨[], 0, 0⟩).width / 2) 1 ∧
      ((generate_mipmaps toLinearId fromLinearId (List.replicate 16 0) 2 2 2).getD (k + 1)
          ⟨[], 0, 0⟩).height =
        max (((generate_mipmaps toLinearId fromLinearId (List.replicate 16 0) 2 2 2).getD k
          ⟨[], 0, 0⟩).height / 2) 1) ∧
    (∀ k, k < 2 →
      ((generate_mipmaps toLinearId fromLinearId (List.replicate 16 0) 2 2 2).getD k
          ⟨[], 0, 0⟩).data.length =
        ((generate_mipmaps toLinearId fromLinearId (List.replicate 16 0) 2 2 2).getD k
            ⟨[], 0, 0⟩).width *
          ((generate_mipmaps toLinearId fromLinearId (List.replicate 16 0) 2 2 2).getD k
            ⟨[], 0, 0⟩).height * 4) :=
  C2_generate_mipmaps_invariants toLinearId fromLinearId (List.replicate 16 0) 2 2 2
    (by norm_num) (by simp) (by norm_num) (by norm_num)

theorem flatMap_congr {α β : Type} (f g : β → List α) :
    ∀ l : List β, (∀ b ∈ l, f b = g b) → l.flatMap f = l.flatMap g := by
  intro l
  induction l with
  | nil => intro _; rfl
  | cons b t ih =>
    intro hall
    rw [List.flatMap_cons, List.flatMap_cons, hall b (by simp),
      ih fun b hb => hall b (by simp [hb])]

/-- For a destination pixel of `downsample_2x` within the half-size grid of
a `w*h*4` buffer, every one of the four 2×2 source reads is in bounds, so
the guard never skips a sample and the pixel is exactly the fixed-divisor-4
average of the four samples, per channel. -/
theorem downsamplePixel_formula (s2l : ℕ → ℚ) (l2s : ℚ → ℕ) (data : List ℕ)
    (w h x y : ℕ) (hlen : data.length = w * h * 4) (hx : x < w / 2) (hy : y < h / 2) :
    downsamplePixel s2l l2s data w y x =
      [l2s ((s2l (data.getD (((y * 2 + 0) * w + (x * 2 + 0)) * 4) 0) +
             s2l (data.getD (((y * 2 + 0) * w + (x * 2 + 1)) * 4) 0) +
             s2l (data.getD (((y * 2 + 1) * w + (x * 2 + 0)) * 4) 0) +
             s2l (data.getD (((y * 2 + 1) * w + (x * 2 + 1)) * 4) 0)) / 4),
       l2s ((s2l (data.getD (((y * 2 + 0) * w + (x * 2 + 0)) * 4 + 1) 0) +
             s2l (data.getD (((y * 2 + 0) * w + (x * 2 + 1)) * 4 + 1) 0) +
             s2l (data.getD (((y * 2 + 1) * w + (x * 2 + 0)) * 4 + 1) 0) +
             s2l (data.getD (((y * 2 + 1) * w + (x * 2 + 1)) * 4 + 1) 0)) / 4),
       l2s ((s2l (data.getD (((y * 2 + 0) * w + (x * 2 + 0)) * 4 + 2) 0) +
             s2l (data.getD (((y * 2 + 0) * w + (x * 2 + 1)) * 4 + 2) 0) +
             s2l (data.getD (((y * 2 + 1) * w + (x * 2 + 0)) * 4 + 2) 0) +
             s2l (data.getD (((y * 2 + 1) * w + (x * 2 + 1)) * 4 + 2) 0)) / 4),
       (round (((data.getD (((y * 2 + 0) * w + (x * 2 + 0)) * 4 + 3) 0 : ℚ) +
                (data.getD (((y * 2 + 0) * w + (x * 2 + 1)) * 4 + 3) 0 : ℚ) +
                (data.getD (((y * 2 + 1) * w + (x * 2 + 0)) * 4 + 3) 0 : ℚ) +
                (data.getD (((y * 2 + 1) * w + (x * 2 + 1)) * 4 + 3) 0 : ℚ)) / 4)).toNat] := by
  have hb : ∀ dy dx : ℕ, dy < 2 → dx < 2 →
      ((y * 2 + dy) * w + (x * 2 + dx)) * 4 + 3 < data.length := by
    intro dy dx hdy hdx
    rw [hlen]
    have hxw : x * 2 + dx < w := by omega
    have hyh : y * 2 + dy < h := by omega
    have h1 := pixel_lt (x * 2 + dx) (y * 2 + dy) w h hxw hyh
    omega
  simp only [downsamplePixel, List.foldl_cons, List.foldl_nil,
    if_pos (hb 0 0 (by norm_num) (by norm_num)),
    if_pos (hb 0 1 (by norm_num) (by norm_num)),
    if_pos (hb 1 0 (by norm_num) (by norm_num)),
    if_pos (hb 1 1 (by norm_num) (by norm_num)), zero_add]

/-- C10: for a `w*h*4` input, every destination pixel's four 2×2 source
indices are in bounds (the guard never excludes a sample), each destination
pixel is the average of exactly those 4 samples with the fixed divisor 4,
and for odd dimensions the last row/column is never read: two inputs that
agree outside the dropped last row/column produce identical outputs. -/
theorem C10_downsample_four_in_bounds_samples (s2l : ℕ → ℚ) (l2s : ℚ → ℕ)
    (data : List ℕ) (w h : ℕ) (hlen : data.length = w * h * 4) :
    (∀ x y dy dx, x < w / 2 → y < h / 2 → dy < 2 → dx < 2 →
      ((y * 2 + dy) * w + (x * 2 + dx)) * 4 + 3 < data.length) ∧
    (∀ x y, x < w / 2 → y < h / 2 →
      downsamplePixel s2l l2s data w y x =
        [l2s ((s2l (data.getD (((y * 2 + 0) * w + (x * 2 + 0)) * 4) 0) +
               s2l (data.getD (((y * 2 + 0) * w + (x * 2 + 1)) * 4) 0) +
               s2l (data.getD (((y * 2 + 1) * w + (x * 2 + 0)) * 4) 0) +
               s2l (data.getD (((y * 2 + 1) * w + (x * 2 + 1)) * 4) 0)) / 4),
         l2s ((s2l (data.getD (((y * 2 + 0) * w + (x * 2 + 0)) * 4 + 1) 0) +
               s2l (data.getD (((y * 2 + 0) * w + (x * 2 + 1)) * 4 + 1) 0) +
               s2l (data.getD (((y * 2 + 1) * w + (x * 2 + 0)) * 4 + 1) 0) +
               s2l (data.getD (((y * 2 + 1) * w + (x * 2 + 1)) * 4 + 1) 0)) / 4),
         l2s ((s2l (data.getD (((y * 2 + 0) * w + (x * 2 + 0)) * 4 + 2) 0) +
               s2l (data.getD (((y * 2 + 0) * w + (x * 2 + 1)) * 4 + 2) 0) +
               s2l (data.getD (((y * 2 + 1) * w + (x * 2 + 0)) * 4 + 2) 0) +
               s2l (data.getD (((y * 2 + 1) * w + (x * 2 + 1)) * 4 + 2) 0)) / 4),
         (round (((data.getD (((y * 2 + 0) * w + (x * 2 + 0)) * 4 + 3) 0 : ℚ) +
                  (data.getD (((y * 2 + 0) * w + (x * 2 + 1)) * 4 + 3) 0 : ℚ) +
                  (data.getD (((y * 2 + 1) * w + (x * 2 + 0)) * 4 + 3) 0 : ℚ) +
                  (data.getD (((y * 2 + 1) * w + (x * 2 + 1)) * 4 + 3) 0 : ℚ)) / 4)).toNat]) ∧
    (∀ data' : List ℕ, data'.length = w * h * 4 →
      (∀ i, i < w * h * 4 →
        (w % 2 = 1 → i / 4 % w ≠ w - 1) →
        (h % 2 = 1 → i / 4 / w ≠ h - 1) →
        data.getD i 0 = data'.getD i 0) →
      downsample_2x s2l l2s data w h = downsample_2x s2l l2s data' w h) := by
  refine ⟨?_, ?_, ?_⟩
  · intro x y dy dx hx hy hdy hdx
    rw [hlen]
    have hxw : x * 2 + dx < w := by omega
    have hyh : y * 2 + dy < h := by omega
    have h1 := pixel_lt (x * 2 + dx) (y * 2 + dy) w h hxw hyh
    omega
  · intro x y hx hy
    exact downsamplePixel_formula s2l l2s data w h x y hlen hx hy
  · intro data' hlen' hagree
    unfold downsample_2x
    apply flatMap_congr
    intro y hy
    apply flatMap_congr
    intro x hx
    rw [List.mem_range] at hy hx
    rw [downsamplePixel_formula s2l l2s data w h x y hlen hx hy,
      downsamplePixel_formula s2l l2s data' w h x y hlen' hx hy]
    have hs : ∀ dy dx c : ℕ, dy < 2 → dx < 2 → c < 4 →
        data.getD (((y * 2 + dy) * w + (x * 2 + dx)) * 4 + c) 0 =
          data'.getD (((y * 2 + dy) * w + (x * 2 + dx)) * 4 + c) 0 := by
      intro dy dx c hdy hdx hc
      have hxw : x * 2 + dx < w := by omega
      have hyh : y * 2 + dy < h := by omega
      have hdiv : (((y * 2 + dy) * w + (x * 2 + dx)) * 4 + c) / 4 =
          (y * 2 + dy) * w + (x * 2 + dx) := by omega
      have hcard := pixel_lt (x * 2 + dx) (y * 2 + dy) w h hxw hyh
      apply hagree
      · omega
      · intro hwodd
        rw [hdiv, pixel_mod (x * 2 + dx) (y * 2 + dy) w hxw]
        omega
      · intro hhodd
        rw [hdiv, pixel_div (x * 2 + dx) (y * 2 + dy) w hxw]
        omega
    have hs0 : ∀ dy dx : ℕ, dy < 2 → dx < 2 →
        data.getD (((y * 2 + dy) * w + (x * 2 + dx)) * 4) 0 =
          data'.getD (((y * 2 + dy) * w + (x * 2 + dx)) * 4) 0 := by
      intro dy dx hdy hdx
      have hc := hs dy dx 0 hdy hdx (by norm_num)
      simpa using hc
    rw [hs0 0 0 (by norm_num) (by norm_num), hs0 0 1 (by norm_num) (by norm_num),
      hs0 1 0 (by norm_num) (by norm_num), hs0 1 1 (by norm_num) (by norm_num),
      hs 0 0 1 (by norm_num) (by norm_num) (by norm_num),
      hs 0 1 1 (by norm_num) (by norm_num) (by norm_num),
      hs 1 0 1 (by norm_num) (by norm_num) (by norm_num),
      hs 1 1 1 (by norm_num) (by norm_num) (by norm_num),
      hs 0 0 2 (by norm_num) (by norm_num) (by norm_num),
      hs 0 1 2 (by norm_num) (by norm_num) (by norm_num),
      hs 1 0 2 (by norm_num) (by norm_num) (by norm_num),
      hs 1 1 2 (by norm_num) (by norm_num) (by norm_num),
      hs 0 0 3 (by norm_num) (by norm_num) (by norm_num),
      hs 0 1 3 (by norm_num) (by norm_num) (by norm_num),
      hs 1 0 3 (by norm_num) (by norm_num) (by norm_num),
      hs 1 1 3 (by norm_num) (by norm_num) (by norm_num)]

/-- Witness for C10 at a 2×2 all-zero RGBA buffer: the bottom-right 2×2
source read of destination pixel (0,0) is in bounds. -/
theorem C10_downsample_four_in_bounds_samples_witness :
    ((0 * 2 + 1) * 2 + (0 * 2 + 1)) * 4 + 3 < (List.replicate 16 (0 : ℕ)).length :=
  (C10_downsample_four_in_bounds_samples toLinearId fromLinearId
      (List.replicate 16 0) 2 2 (by simp)).1 0 0 1 1
    (by norm_num) (by norm_num) (by norm_num) (by norm_num)

/-- C7: `select_mipmap_level` returns 0 when the output size is at least the
source size, and otherwise `floor(log2(source/output))` clamped to
`[0, mipmap_count - 1]`; in particular 512→0, 256→1, 128→2, 64→3 for a
512-pixel source with 4 levels. -/
theorem C7_select_mipmap_level (o s c : ℕ) (ho : 1 ≤ o) (hc : 1 ≤ c) :
    (s ≤ o → select_mipmap_level o s c = 0) ∧
    (o < s → (select_mipmap_level o s c : ℤ) =
      max 0 (min ((c : ℤ) - 1) ⌊Real.logb 2 ((s : ℝ) / (o : ℝ))⌋)) ∧
    select_mipmap_level 512 512 4 = 0 ∧
    select_mipmap_level 256 512 4 = 1 ∧
    select_mipmap_level 128 512 4 = 2 ∧
    select_mipmap_level 64 512 4 = 3 := by
  refine ⟨?_, ?_, ?_, ?_, ?_, ?_⟩
  · intro hle
    unfold select_mipmap_level
    rw [if_pos hle]
  · intro hlt
    have ho' : (0 : ℝ) < (o : ℝ) := by exact_mod_cast ho
    have hx1 : (1 : ℝ) ≤ (s : ℝ) / (o : ℝ) := by
      rw [le_div_iff₀ ho', one_mul]
      exact_mod_cast hlt.le
    have hfloor : ⌊Real.logb 2 ((s : ℝ) / (o : ℝ))⌋ = Int.log 2 ((s : ℝ) / (o : ℝ)) :=
      Real.floor_logb_natCast (by positivity)
    have hlog : Int.log 2 ((s : ℝ) / (o : ℝ)) = Nat.log 2 (s / o) := by
      rw [Int.log_of_one_le_right 2 hx1, Nat.floor_div_nat, Nat.floor_natCast]
    unfold select_mipmap_level
    rw [if_neg (by omega), hfloor, hlog]
    have hnn : (0 : ℤ) ≤ (Nat.log 2 (s / o) : ℤ) := Int.natCast_nonneg _
    push_cast [Nat.cast_sub hc]
    omega
  · unfold select_mipmap_level
    rw [if_pos (by norm_num)]
  · unfold select_mipmap_level
    rw [if_neg (by norm_num), show (512 : ℕ) / 256 = 2 ^ 1 from by norm_num,
      Nat.log_pow (by norm_num)]
    decide
  · unfold select_mipmap_level
    rw [if_neg (by norm_num), show (512 : ℕ) / 128 = 2 ^ 2 from by norm_num,
      Nat.log_pow (by norm_num)]
    decide
  · unfold select_mipmap_level
    rw [if_neg (by norm_num), show (512 : ℕ) / 64 = 2 ^ 3 from by norm_num,
      Nat.log_pow (by norm_num)]
    decide

/-- Witness for C7 at output 64, source 512, 4 levels. -/
theorem C7_select_mipmap_level_witness :
    (select_mipmap_level 64 512 4 : ℤ) =
      max 0 (min ((4 : ℤ) - 1) ⌊Real.logb 2 ((512 : ℕ) / ((64 : ℕ) : ℝ))⌋) :=
  (C7_select_mipmap_level 64 512 4 (by norm_num) (by norm_num)).2.1 (by norm_num)

end JusDnce
